import Mathlib

/-!
# la4x: process discovery and environment reconstruction

A shallow embedding of `main.go`.  Go strings are sequences; they are modelled
as lists of characters, and the functions of package `strings` the program
calls (`Index`, `Contains`, `Split`, `SplitN`, `Join`, `Replace`) act on the
sequence.  The outside world (the process table, the files under `/proc`, the
environment of the invoking process, the iteration order of a map) is passed
in explicitly.
-/

namespace La4x

/-! ## Strings -/

/-- A Go string, as the sequence of its elements. -/
abbrev Str := List Char

/-- The zero byte, `string([]byte{0})` as a single element. -/
def NUL : Char := Char.ofNat 0

/-- Go `strings.HasPrefix(s, p)`. -/
def hasPrefixOf (s p : Str) : Bool := p.isPrefixOf s

/-- Go `strings.Index(s, sep)`: the offset of the first occurrence of `sep`
in `s`; `none` stands for `-1`. -/
def Index : Str → Str → Option Nat
  | [], sep => if sep = [] then some 0 else none
  | c :: cs, sep =>
    if hasPrefixOf (c :: cs) sep then some 0 else (Index cs sep).map Nat.succ

/-- Go `strings.Contains(s, substr)`, which is `Index(s, substr) >= 0`. -/
def Contains (s substr : Str) : Bool := (Index s substr).isSome

/-- The loop of Go `strings.genSplit` for a non-empty separator: at most `n`
cuts, each at the first occurrence of `sep` in what is left. -/
def genSplit (sep : Str) : Nat → Str → List Str
  | 0, s => [s]
  | n + 1, s =>
    match Index s sep with
    | none => [s]
    | some m => s.take m :: genSplit sep n (s.drop (m + sep.length))

/-- Go `strings.Split(s, sep)` for a non-empty `sep`: cut at every occurrence.
A string of length `k` has at most `k` occurrences. -/
def Split (s sep : Str) : List Str := genSplit sep s.length s

/-- Go `strings.SplitN(s, sep, n)` for a non-empty `sep` and `n >= 0`: at most
`n` pieces, the last one the unsplit remainder. -/
def SplitN (s sep : Str) (n : Nat) : List Str :=
  if n = 0 then [] else genSplit sep (n - 1) s

/-- Go `strings.Join(elems, sep)`. -/
def Join : List Str → Str → Str
  | [], _ => []
  | [a], _ => a
  | a :: b :: rest, sep => a ++ sep ++ Join (b :: rest) sep

/-- The loop of Go `strings.Replace` for a non-empty `old`: at most `n`
replacements, left to right, without overlap. -/
def replaceN (old new : Str) : Nat → Str → Str
  | 0, s => s
  | n + 1, s =>
    match Index s old with
    | none => s
    | some m => s.take m ++ new ++ replaceN old new n (s.drop (m + old.length))

/-- Go `strings.Replace(s, old, new, -1)` for a non-empty `old`: every
occurrence is replaced. -/
def ReplaceAll (s old new : Str) : Str := replaceN old new s.length s

/-! ## Results -/

/-- How a call ends: it returns a value, it returns a non-nil `error`, or the
Go runtime panics (an index or a slice bound out of range). -/
inductive Outcome (α : Type) where
  | ok : α → Outcome α
  | error : String → Outcome α
  | panic : String → Outcome α
  deriving DecidableEq, Repr

/-! ## Maps -/

/-- A Go `map[string]string`, as the list of its entries; keys are unique. -/
abbrev EnvMap := List (Str × Str)

/-- The lookup `v, ok := m[k]`. -/
def EnvMap.get? : EnvMap → Str → Option Str
  | [], _ => none
  | (k', v) :: rest, k => if k' = k then some v else EnvMap.get? rest k

/-- The value `m[k]`, the empty string when `k` is absent. -/
def EnvMap.get (m : EnvMap) (k : Str) : Str := (m.get? k).getD []

/-- The assignment `m[k] = v`. -/
def EnvMap.set : EnvMap → Str → Str → EnvMap
  | [], k, v => [(k, v)]
  | (k', v') :: rest, k, v =>
    if k' = k then (k, v) :: rest else (k', v') :: EnvMap.set rest k v

/-- The keys of a map. -/
def EnvMap.keys (m : EnvMap) : List Str := m.map Prod.fst

/-! ## The whitelist -/

/-- The names copied out of the environment of the game. -/
def neededEnv : List Str :=
  [ "DRI_PRIME".toList,
    "LD_LIBRARY_PATH".toList,
    "PYTHONPATH".toList,
    "TERM".toList,
    "PATH".toList,
    "WINE".toList,
    "SHELL".toList,
    "SteamUser".toList,
    "SteamGameId".toList,
    "SteamAppId".toList,
    "SteamClientLaunch".toList,
    "SteamAppUser".toList,
    "EnableConfiguratorSupport".toList,
    "ENABLE_VK_LAYER_VALVE_steam_overlay_1".toList,
    "DXVK".toList,
    "DXVK_LOG_LEVEL".toList,
    "STEAM_ZENITY".toList,
    "STEAM_RUNTIME".toList,
    "STEAM_RUNTIME_LIBRARY_PATH".toList,
    "STEAM_CLIENT_CONFIG_FILE".toList,
    "STEAM_COMPAT_CLIENT_INSTALL_PATH".toList,
    "STEAM_COMPAT_DATA_PATH".toList,
    "STEAMSCRIPT_VERSION".toList,
    "SDL_VIDEO_X11_DGAMOUSE".toList,
    "SDL_GAMECONTROLLERCONFIG".toList,
    "SDL_GAMECONTROLLER_IGNORE_DEVICES".toList,
    "SDL_GAMECONTROLLER_ALLOW_STEAM_VIRTUAL_GAMEPAD".toList,
    "SDL_VIDEO_FULLSCREEN_DISPLAY".toList,
    "SteamStreamingHardwareEncodingNVIDIA".toList,
    "SteamStreamingHardwareEncodingIntel".toList,
    "SteamStreamingHardwareEncodingAMD".toList,
    "WINEDEBUG".toList,
    "WINEDLLPATH".toList,
    "WINEPREFIX".toList,
    "WINE_MONO_OVERRIDES".toList,
    "WINEESYNC".toList,
    "WINEDLLOVERRIDES".toList,
    "WINELOADERNOEXEC".toList,
    "WINEPRELOADRESERVE".toList,
    "PROTON_VR_RUNTIME".toList ]

/-- The loop of `inEnv` over a list of names: `true` at the first equal one. -/
def inEnvLoop (key : Str) : List Str → Bool
  | [] => false
  | k :: rest => if key = k then true else inEnvLoop key rest

/-- Go `inEnv(key)`. -/
def inEnv (key : Str) : Bool := inEnvLoop key neededEnv

/-! ## The environment extractor -/

/-- One iteration of the loop of `environ` over the records of the block.
`SplitN` with `n = 2` returns one or two pieces, so `evp[0]` always exists and
the first case below is never taken. -/
def environStep (emap : EnvMap) (ev : Str) : EnvMap :=
  match SplitN ev ['='] 2 with
  | [] => emap
  | [k] => if k = "WINE".toList then emap.set "WINE".toList [] else emap
  | k :: v :: _ => if inEnv k then emap.set k v else emap

/-- The copy pass of `environ`: the loop over all records, from an empty map. -/
def environCopy (records : List Str) : EnvMap :=
  records.foldl environStep []

/-- The defaults of `environ` for `TERM` and `SHELL`, set when absent. -/
def environDefaults (emap : EnvMap) : EnvMap :=
  let emap1 :=
    match emap.get? "TERM".toList with
    | some _ => emap
    | none => emap.set "TERM".toList "xterm".toList
  match emap1.get? "SHELL".toList with
  | some _ => emap1
  | none => emap1.set "SHELL".toList "/bin/bash".toList

/-- Go `environ(pid)`.  The argument is the outcome of reading
`/proc/<pid>/environ`: the block, or the error of `ioutil.ReadFile`. -/
def environ (file : Except String Str) : Outcome EnvMap :=
  match file with
  | .error err => .error err
  | .ok buff =>
    let records := Split buff [NUL]
    .ok (environDefaults (environCopy records))

/-! ## The process locator -/

/-- Go `unicode.IsSpace`, the white space `strings.TrimSpace` removes. -/
def isSpace (c : Char) : Bool :=
  let n := c.toNat
  (9 ≤ n && n ≤ 13) || n = 32 || n = 0x85 || n = 0xA0 || n = 0x1680 ||
  (0x2000 ≤ n && n ≤ 0x200a) || n = 0x2028 || n = 0x2029 || n = 0x202f ||
  n = 0x205f || n = 0x3000

/-- Go `strings.TrimSpace`. -/
def TrimSpace (s : Str) : Str :=
  ((s.dropWhile isSpace).reverse.dropWhile isSpace).reverse

/-- How the digit loop of `strconv.ParseUint` ends. -/
inductive NumResult where
  | ok : Nat → NumResult
  | syntaxErr : NumResult
  | rangeErr : NumResult
  deriving DecidableEq, Repr

/-- The digit loop of Go `strconv.ParseUint(s, 10, 64)`, from the value `n`
read so far: a byte that is no decimal digit is a syntax error, a value above
`2^64 - 1` a range error, whichever comes first. -/
def parseUintLoop : Str → Nat → NumResult
  | [], n => .ok n
  | c :: cs, n =>
    if 48 ≤ c.toNat ∧ c.toNat ≤ 57 then
      if n * 10 + (c.toNat - 48) ≥ 2 ^ 64 then .rangeErr
      else parseUintLoop cs (n * 10 + (c.toNat - 48))
    else .syntaxErr

/-- Go `strconv.Atoi` for a 64-bit `int`: the value returned, and whether the
error returned is `nil`.  On a syntax error the value is `0`; on a range error
it is the nearest bound of `int`. -/
def Atoi (s : Str) : Int × Bool :=
  match s with
  | [] => (0, false)
  | c :: cs =>
    let neg : Bool := c = '-'
    let digits := if c = '-' ∨ c = '+' then cs else c :: cs
    if digits = [] then (0, false)
    else
      match parseUintLoop digits 0 with
      | .syntaxErr => (0, false)
      | .rangeErr => (if neg then -(2 ^ 63 : Int) else 2 ^ 63 - 1, false)
      | .ok un =>
        if !neg ∧ un ≥ 2 ^ 63 then (2 ^ 63 - 1, false)
        else if neg ∧ un > 2 ^ 63 then (-(2 ^ 63 : Int), false)
        else (if neg then -(un : Int) else (un : Int), true)

/-- One match of `filepath.Glob("/proc/[0-9]*")`, with the outcome of reading
`<match>/cmdline`: the buffer, or the error of `ioutil.ReadFile`. -/
structure ProcEntry where
  path : Str
  cmdline : Except String Str

/-- The scan of `detectFFXIVPID` over the matches, in their order: the value
of `detected` when the loop is left (`-1` when it ends without a `break`), or
the panic of `match[6:]` on a match shorter than six bytes. -/
def detectLoop : List ProcEntry → Outcome Int
  | [] => .ok (-1)
  | e :: rest =>
    match e.cmdline with
    | .error _ => detectLoop rest
    | .ok buff =>
      let cmdline := Split buff [NUL]
      if cmdline.length < 2 then detectLoop rest
      else
        match cmdline.get? 1 with
        | none => .panic "index out of range"
        | some c1 =>
          if !Contains c1 ".exe".toList then detectLoop rest
          else if Contains c1 "ffxivboot.exe".toList then
            if e.path.length < 6 then .panic "slice bounds out of range"
            else .ok (Atoi (TrimSpace (e.path.drop 6))).1
          else detectLoop rest

/-- Go `detectFFXIVPID()`.  The arguments are the value of the flag `-p` and
the process table (`filepath.Glob` does not fail on this pattern). -/
def detectFFXIVPID (pid : Int) (table : List ProcEntry) : Outcome Int :=
  if pid > -1 then .ok pid
  else
    match detectLoop table with
    | .ok detected =>
      if detected > 0 then .ok detected else .error "process not found"
    | .error err => .error err
    | .panic msg => .panic msg

/-- Whether a byte is a decimal digit. -/
def isDigit (c : Char) : Bool := 48 ≤ c.toNat && c.toNat ≤ 57

/-- The number a string of decimal digits denotes. -/
def decimalValue (ds : Str) : Nat :=
  ds.foldl (fun n c => n * 10 + (c.toNat - 48)) 0

/-- The process id an entry of the process table names: `n` for the path
`/proc/<n>`, and nothing for any other path. -/
def ProcEntry.pid? (e : ProcEntry) : Option Nat :=
  if hasPrefixOf e.path "/proc/".toList ∧ e.path.drop 6 ≠ [] ∧
      (e.path.drop 6).all isDigit = true then
    some (decimalValue (e.path.drop 6))
  else none

/-- An entry of a process table as the kernel shows it: `/proc/<n>` for a
positive `n` that is a value of the Go type `int`. -/
def ProcEntry.wellFormed (e : ProcEntry) : Bool :=
  match e.pid? with
  | some n => decide (0 < n) && decide (n < 2 ^ 63)
  | none => false

/-- The entry the locator looks for: its `cmdline` is readable, has at least
two tokens, and the second one contains `ffxivboot.exe`. -/
def ProcEntry.isTarget (e : ProcEntry) : Bool :=
  match e.cmdline with
  | .error _ => false
  | .ok buff =>
    match Split buff [NUL] with
    | _ :: t1 :: _ => Contains t1 "ffxivboot.exe".toList
    | _ => false

/-! ## Path repair -/

/-- Go `strings.ToLower`, on the ASCII letters.  The program only asks whether
the result contains `steam`; no other letter has one of these five as its
lower case. -/
def ToLower (s : Str) : Str := s.map Char.toLower

/-- The inner loop of the `..` case of `filepath.Clean`: from write offset `w`,
step back while above `dotdot` and `out[w]` is no separator. -/
def cleanBackup (out : Str) (dotdot : Nat) : Nat → Nat
  | 0 => 0
  | w + 1 =>
    if w + 1 > dotdot ∧ out.getD (w + 1) '/' ≠ '/' then cleanBackup out dotdot w
    else w + 1

/-- The main loop of Go `filepath.Clean` (Unix) over what is left of the path.
`copying` says that the element copy of the default case is under way; `out`
is the buffer written so far and `dotdot` the offset below which `..` may not
back up. -/
def cleanLoop (rooted : Bool) : Str → Bool → Str → Nat → Str
  | [], _, out, _ => out
  | c :: rest, true, out, dotdot =>
    if c = '/' then cleanLoop rooted rest false out dotdot
    else cleanLoop rooted rest true (out ++ [c]) dotdot
  | c :: rest, false, out, dotdot =>
    if c = '/' then cleanLoop rooted rest false out dotdot
    else if c = '.' ∧ (rest = [] ∨ rest.head? = some '/') then
      cleanLoop rooted rest false out dotdot
    else
      let start :=
        if (rooted && out.length != 1) || (!rooted && out.length != 0) then out ++ ['/']
        else out
      match rest with
      | [] => cleanLoop rooted [] true (start ++ [c]) dotdot
      | d :: rest2 =>
        if c = '.' ∧ d = '.' ∧ (rest2 = [] ∨ rest2.head? = some '/') then
          if out.length > dotdot then
            cleanLoop rooted rest2 false
              (out.take (cleanBackup out dotdot (out.length - 1))) dotdot
          else if !rooted then
            let out1 := (if out.length > 0 then out ++ ['/'] else out) ++ ['.', '.']
            cleanLoop rooted rest2 false out1 out1.length
          else cleanLoop rooted rest2 false out dotdot
        else cleanLoop rooted (d :: rest2) true (start ++ [c]) dotdot

/-- Go `filepath.Clean` (Unix). -/
def Clean (path : Str) : Str :=
  match path with
  | [] => ['.']
  | c :: rest =>
    let out :=
      if c = '/' then cleanLoop true rest false ['/'] 1
      else cleanLoop false (c :: rest) false [] 0
    if out = [] then ['.'] else out

/-- Go `filepath.Dir` (Unix): `Clean` of the path up to and including its last
separator. -/
def Dir (path : Str) : Str :=
  Clean (path.reverse.dropWhile (fun c => c != '/')).reverse

/-- The filtering loop of `fixPath`, `for i := len(elements) - 1; i <= 0; i--`,
from index `i`, with `fuel` bounding the number of iterations modelled:
`none` when the fuel is used up before the loop is left. -/
def fixPathLoop : Nat → List Str → Int → Option (Outcome (List Str))
  | 0, _, _ => none
  | fuel + 1, elements, i =>
    if i ≤ 0 then
      if i < 0 ∨ i ≥ elements.length then some (.panic "index out of range")
      else
        let e := elements.getD i.toNat []
        let elements1 :=
          if !Contains (ToLower e) "steam".toList then
            elements.take i.toNat ++ elements.drop (i.toNat + 1)
          else elements
        fixPathLoop fuel elements1 (i - 1)
    else some (.ok elements)

/-- Go `fixPath(env)`.  `osPath` is `os.Getenv("PATH")` of the invoking
process; `fuel` bounds the iterations of the filtering loop. -/
def fixPath (fuel : Nat) (env : EnvMap) (osPath : Str) : Option (Outcome EnvMap) :=
  let path := env.get "PATH".toList
  let elements := Split path [':']
  match fixPathLoop fuel elements ((elements.length : Int) - 1) with
  | none => none
  | some (.panic msg) => some (.panic msg)
  | some (.error err) => some (.error err)
  | some (.ok elements1) =>
    some (.ok (env.set "PATH".toList
      (ReplaceAll
        (Join elements1 [':'] ++ [':'] ++ Dir (env.get "WINE".toList) ++ [':'] ++ osPath)
        ":.:".toList [':'])))

/-! ## The output driver -/

/-- The quoting both output modes and `shellArgs` apply to a string `s`:
`fmt.Sprintf` of `"%v"` between double quotes, for
`strings.Replace(s, "\"", "\\\"", -1)`. -/
def quote (s : Str) : Str :=
  ['"'] ++ ReplaceAll s ['"'] ['\\', '"'] ++ ['"']

/-- Go `shellArgs(args)`. -/
def shellArgs (args : List Str) : List Str := args.map quote

/-- The line `fmt.Printf("export %v=\"%v\"\n", key, ...)` of script mode, for
`strings.Replace(val, "\"", "\\\"", -1)`. -/
def exportLine (key val : Str) : Str :=
  "export ".toList ++ key ++ ['=', '"'] ++ ReplaceAll val ['"'] ['\\', '"'] ++ ['"', '\n']

/-- Go `fmt.Println(s)` on standard output, whose content so far is `out`. -/
def Println (out s : Str) : Str := out ++ s ++ ['\n']

/-- The script branch of `main`: what is written to standard output.
`entries` are the entries of the map in the order `range env` yields them.
The `fmt.Fprintln(os.Stderr, ...)` of the branch writes to standard error and
adds nothing here. -/
def scriptMode (entries : List (Str × Str)) (args : List Str) : Str :=
  let out := Println [] "#!/bin/sh".toList
  let out := Println out []
  let out := entries.foldl (fun o kv => o ++ exportLine kv.1 kv.2) out
  let out := Println out "\ncd $WINEPREFIX/drive_c".toList
  match args with
  | [] => Println out "$SHELL".toList
  | a :: rest => out ++ a ++ [' '] ++ Join (shellArgs rest) [' '] ++ ['\n']

/-! ## Reading back a quoted string -/

/-- A string with every double quote replaced by a backslash and a double
quote. -/
def escapeQuotes : Str → Str
  | [] => []
  | c :: cs => if c = '"' then '\\' :: '"' :: escapeQuotes cs else c :: escapeQuotes cs

/-- Delete the backslash in front of every double quote. -/
def unescape : Str → Str
  | [] => []
  | [c] => [c]
  | c :: d :: rest =>
    if c = '\\' ∧ d = '"' then '"' :: unescape rest else c :: unescape (d :: rest)

/-- Delete the two enclosing characters of a string, then unescape it. -/
def unquote (s : Str) : Str := unescape s.tail.dropLast

/-! ## Direct execution -/

/-- The fields of a Go `exec.Cmd` the program sets: the command, its
arguments and the environment list `Env` (empty for `nil`). -/
structure Cmd where
  name : Str
  args : List Str
  Env : List Str
  deriving DecidableEq

/-- Go `exec.Command(name, arg...)`: `Env` is left `nil`. -/
def Command (name : Str) (args : List Str) : Cmd := ⟨name, args, []⟩

/-- The exec branch of `main`, up to `cmd.Run()`: the command that is built.
`entries` are the entries of the map in the order `range env` yields them;
each one appends `fmt.Sprintf("%v=\"%v\"", key, ...)` to `cmd.Env`, for
`strings.Replace(val, "\"", "\\\"", -1)`. -/
def execMode (env : EnvMap) (entries : List (Str × Str)) (args : List Str) : Cmd :=
  let cmd :=
    match args with
    | [] => Command (env.get "SHELL".toList) []
    | a :: rest => Command a rest
  entries.foldl
    (fun c kv =>
      { c with Env := c.Env ++ [kv.1 ++ ['=', '"'] ++ ReplaceAll kv.2 ['"'] ['\\', '"'] ++ ['"']] })
    cmd

/-- The environment a child started by `cmd.Run()` gets, as package `os/exec`
documents it: `cmd.Env`, and the environment of the current process when
`cmd.Env` is `nil`. -/
def childEnviron (cmd : Cmd) (osEnviron : List Str) : List Str :=
  if cmd.Env = [] then osEnviron else cmd.Env

/-- The string `K="V2"` of an entry, `V2` being `V` with a backslash in front
of every double quote. -/
def envString (key val : Str) : Str :=
  key ++ ['=', '"'] ++ escapeQuotes val ++ ['"']

/-! ## The search path as the specification describes it -/

/-- The `PATH` of the specification: the segments of the original `PATH` whose
lower-case form contains `steam`, then the directory of `WINE`, then the
`PATH` of the invoking process, joined with `:`. -/
def specPath (env : EnvMap) (osPath : Str) : Str :=
  Join ((Split (env.get "PATH".toList) [':']).filter
      (fun seg => Contains (ToLower seg) "steam".toList)) [':']
    ++ [':'] ++ Dir (env.get "WINE".toList) ++ [':'] ++ osPath

/-- A string with every `:.:` replaced by `:`, from left to right, an
occurrence never overlapping the one before it. -/
def collapseDot : Str → Str
  | [] => []
  | [c] => [c]
  | [c, d] => [c, d]
  | c :: d :: e :: rest =>
    if c = ':' ∧ d = '.' ∧ e = ':' then ':' :: collapseDot rest
    else c :: collapseDot (d :: e :: rest)

/-! ## Sample inputs -/

/-- A block with a bare `WINE`, a two-segment `PATH` and a name outside the
whitelist. -/
def sampleBlock : Str :=
  "WINE".toList ++ NUL :: "PATH=/a:/b".toList ++ NUL :: "FOO=1".toList

/-- The map `environ` returns for `sampleBlock`. -/
def sampleEnv : EnvMap :=
  [("WINE".toList, []), ("PATH".toList, "/a:/b".toList),
    ("TERM".toList, "xterm".toList), ("SHELL".toList, "/bin/bash".toList)]

/-- The map `fixPath` returns for `sampleEnv` when the invoker has `PATH=/bin`. -/
def sampleFixed : EnvMap :=
  [("WINE".toList, []), ("PATH".toList, "/a:/b:/bin".toList),
    ("TERM".toList, "xterm".toList), ("SHELL".toList, "/bin/bash".toList)]

/-- A process table: `init`, an unreadable entry, the game as process 42 and
a second copy of it as process 43. -/
def sampleTable : List ProcEntry :=
  [ ⟨"/proc/1".toList, .ok "init".toList⟩,
    ⟨"/proc/7".toList, .error "permission denied"⟩,
    ⟨"/proc/42".toList, .ok ("wine".toList ++ NUL :: "C:/ffxivboot.exe".toList ++ [NUL])⟩,
    ⟨"/proc/43".toList, .ok ("wine".toList ++ NUL :: "ffxivboot.exe".toList)⟩ ]

/-- A map whose `PATH` has two segments, both marked `steam`, and no `WINE`. -/
def steamEnv : EnvMap := [("PATH".toList, "/steam/a:/steam/b".toList)]

/-- A map whose `PATH` has two segments without `steam`, and no `WINE`. -/
def plainEnv : EnvMap := [("PATH".toList, "/a:/b".toList)]

/-- A map without `PATH`, as `environ` returns it for an empty block. -/
def barePathEnv : EnvMap :=
  [("TERM".toList, "xterm".toList), ("SHELL".toList, "/bin/bash".toList)]

/-! ## Strings: lemmas -/

theorem Index_single_none (c : Char) : ∀ s : Str, c ∉ s → Index s [c] = none := by
  intro s
  induction s with
  | nil => intro _; simp [Index]
  | cons a t ih =>
    intro h
    have ha : c ≠ a := fun e => h (by simp [e])
    have ht : c ∉ t := fun e => h (by simp [e])
    simp [Index, hasPrefixOf, ih ht, ha]

theorem Index_single_append (c : Char) (v : Str) :
    ∀ k : Str, c ∉ k → Index (k ++ c :: v) [c] = some k.length := by
  intro k
  induction k with
  | nil => intro _; simp [Index, hasPrefixOf]
  | cons a t ih =>
    intro h
    have ha : c ≠ a := fun e => h (by simp [e])
    have ht : c ∉ t := fun e => h (by simp [e])
    simp [Index, hasPrefixOf, ih ht, ha]

theorem SplitN_two_none (c : Char) (ev : Str) (h : c ∉ ev) : SplitN ev [c] 2 = [ev] := by
  simp [SplitN, genSplit, Index_single_none c ev h]

theorem SplitN_two_some (c : Char) (k v : Str) (h : c ∉ k) :
    SplitN (k ++ c :: v) [c] 2 = [k, v] := by
  simp [SplitN, genSplit, Index_single_append c v k h]

/-- A string either lacks `c` or is cut by its first `c`. -/
theorem cut_first (c : Char) : ∀ s : Str, c ∉ s ∨ ∃ k v, c ∉ k ∧ s = k ++ c :: v := by
  intro s
  induction s with
  | nil => left; simp
  | cons a t ih =>
    by_cases ha : c = a
    · right; exact ⟨[], t, by simp, by simp [ha]⟩
    · rcases ih with h | ⟨k, v, hk, rfl⟩
      · left; simp [ha, h]
      · right; exact ⟨a :: k, v, by simp [ha, hk], by simp⟩

/-! ## Fuel: the bounds of `Split`, `ReplaceAll` and the loop of `fixPath` -/

theorem Index_bound (sep : Str) : ∀ (s : Str) (m : Nat), Index s sep = some m →
    m + sep.length ≤ s.length := by
  intro s
  induction s with
  | nil =>
    intro m h
    by_cases hs : sep = []
    · simp [Index, hs] at h; simp [hs, ← h]
    · simp [Index, hs] at h
  | cons a t ih =>
    intro m h
    by_cases hp : hasPrefixOf (a :: t) sep = true
    · simp only [Index, hp, if_true, Option.some.injEq] at h
      have hp2 : sep <+: a :: t := List.isPrefixOf_iff_prefix.1 hp
      have := hp2.length_le
      omega
    · simp only [Index, hp, Bool.false_eq_true, if_false, Option.map_eq_some'] at h
      obtain ⟨m2, hm2, rfl⟩ := h
      have := ih m2 hm2
      simp only [List.length_cons]
      omega

theorem Index_nil (sep : Str) (h : sep ≠ []) : Index [] sep = none := by
  simp [Index, h]

/-- More cuts than the string has elements change nothing: the fuel of `Split`
is enough. -/
theorem genSplit_fuel (sep : Str) (hsep : sep ≠ []) : ∀ (k n : Nat) (s : Str),
    s.length ≤ k → s.length ≤ n → genSplit sep n s = genSplit sep s.length s := by
  have hpos : 0 < sep.length := List.length_pos.2 hsep
  intro k
  induction k with
  | zero =>
    intro n s hk _
    have hs : s = [] := List.length_eq_zero.1 (Nat.le_zero.1 hk)
    subst hs
    cases n with
    | zero => rfl
    | succ n => simp [genSplit, Index_nil sep hsep]
  | succ k ih =>
    intro n s hk hn
    cases hl : s.length with
    | zero =>
      have hs : s = [] := List.length_eq_zero.1 hl
      subst hs
      cases n with
      | zero => rfl
      | succ n => simp [genSplit, Index_nil sep hsep]
    | succ l =>
      cases n with
      | zero => omega
      | succ n =>
        cases hi : Index s sep with
        | none => simp [genSplit, hi]
        | some m =>
          have hb := Index_bound sep s m hi
          have hd : (s.drop (m + sep.length)).length ≤ l := by
            rw [List.length_drop]; omega
          simp only [genSplit, hi]
          rw [ih n _ (by omega) (by omega), ih l _ (by omega) hd]

theorem Split_fuel (s sep : Str) (hsep : sep ≠ []) (n : Nat) (hn : s.length ≤ n) :
    genSplit sep n s = Split s sep :=
  genSplit_fuel sep hsep s.length n s (Nat.le_refl _) hn

/-- More replacements than the string has elements change nothing: the fuel of
`ReplaceAll` is enough. -/
theorem replaceN_fuel (old new : Str) (hold : old ≠ []) : ∀ (k n : Nat) (s : Str),
    s.length ≤ k → s.length ≤ n → replaceN old new n s = replaceN old new s.length s := by
  have hpos : 0 < old.length := List.length_pos.2 hold
  intro k
  induction k with
  | zero =>
    intro n s hk _
    have hs : s = [] := List.length_eq_zero.1 (Nat.le_zero.1 hk)
    subst hs
    cases n with
    | zero => rfl
    | succ n => simp [replaceN, Index_nil old hold]
  | succ k ih =>
    intro n s hk hn
    cases hl : s.length with
    | zero =>
      have hs : s = [] := List.length_eq_zero.1 hl
      subst hs
      cases n with
      | zero => rfl
      | succ n => simp [replaceN, Index_nil old hold]
    | succ l =>
      cases n with
      | zero => omega
      | succ n =>
        cases hi : Index s old with
        | none => simp [replaceN, hi]
        | some m =>
          have hb := Index_bound old s m hi
          have hd : (s.drop (m + old.length)).length ≤ l := by
            rw [List.length_drop]; omega
          simp only [replaceN, hi]
          rw [ih n _ (by omega) (by omega), ih l _ (by omega) hd]

/-- The filtering loop of `fixPath` ends within two iterations, whatever the
segments and the index it starts from: it is left at once when `i > 0`, and
otherwise panics on `elements[i]`, at the latest in its second iteration. -/
theorem fixPathLoop_fuel (fuel : Nat) (elements : List Str) (i : Int) :
    fixPathLoop (fuel + 2) elements i = fixPathLoop 2 elements i ∧
      fixPathLoop 2 elements i ≠ none := by
  by_cases hi : i ≤ 0
  · by_cases hb : i < 0 ∨ i ≥ elements.length
    · simp [fixPathLoop, hi, hb]
    · have h1 : i - 1 ≤ 0 := by omega
      have h2 : i - 1 < 0 := by omega
      simp [fixPathLoop, hi, hb, h1, h2]
  · simp [fixPathLoop, hi]

/-! ## Maps: lemmas -/

theorem get?_set_self (k v : Str) : ∀ m : EnvMap, (m.set k v).get? k = some v := by
  intro m
  induction m with
  | nil => simp [EnvMap.set, EnvMap.get?]
  | cons e rest ih =>
    obtain ⟨k1, v1⟩ := e
    by_cases h : k1 = k
    · simp [EnvMap.set, EnvMap.get?, h]
    · simp [EnvMap.set, EnvMap.get?, h, ih]

theorem get?_set_ne (k v k2 : Str) (hne : k ≠ k2) :
    ∀ m : EnvMap, (m.set k v).get? k2 = m.get? k2 := by
  intro m
  induction m with
  | nil => simp [EnvMap.set, EnvMap.get?, hne]
  | cons e rest ih =>
    obtain ⟨k1, v1⟩ := e
    by_cases h : k1 = k
    · subst h; simp [EnvMap.set, EnvMap.get?, hne]
    · by_cases h2 : k1 = k2
      · subst h2; simp [EnvMap.set, EnvMap.get?, h]
      · simp [EnvMap.set, EnvMap.get?, h, h2, ih]

theorem keys_set (k v k2 : Str) :
    ∀ m : EnvMap, k2 ∈ (m.set k v).keys ↔ k2 = k ∨ k2 ∈ m.keys := by
  intro m
  induction m with
  | nil => simp [EnvMap.set, EnvMap.keys]
  | cons e rest ih =>
    obtain ⟨k1, v1⟩ := e
    by_cases h : k1 = k
    · subst h
      simp [EnvMap.set, EnvMap.keys]
    · have ih2 : k2 ∈ List.map Prod.fst (EnvMap.set rest k v) ↔
          k2 = k ∨ k2 ∈ List.map Prod.fst rest := ih
      simp only [EnvMap.set, EnvMap.keys, h, if_false, List.map_cons, List.mem_cons, ih2]
      tauto

theorem mem_keys_iff (k : Str) : ∀ m : EnvMap, k ∈ m.keys ↔ ∃ v, m.get? k = some v := by
  intro m
  induction m with
  | nil => simp [EnvMap.keys, EnvMap.get?]
  | cons e rest ih =>
    obtain ⟨k1, v1⟩ := e
    have ih2 : k ∈ List.map Prod.fst rest ↔ ∃ v, EnvMap.get? rest k = some v := ih
    by_cases h : k1 = k
    · subst h; simp [EnvMap.keys, EnvMap.get?]
    · have h2 : k ≠ k1 := fun e => h e.symm
      simp [EnvMap.keys, EnvMap.get?, h, h2, ih2]

theorem get?_none_iff (k : Str) (m : EnvMap) : m.get? k = none ↔ k ∉ m.keys := by
  rw [mem_keys_iff]
  cases h : m.get? k <;> simp

/-! ## The whitelist: lemmas -/

theorem inEnvLoop_iff (key : Str) : ∀ l : List Str, inEnvLoop key l = true ↔ key ∈ l := by
  intro l
  induction l with
  | nil => simp [inEnvLoop]
  | cons k rest ih =>
    by_cases h : key = k
    · simp [inEnvLoop, h]
    · simp [inEnvLoop, h, ih]

theorem inEnv_iff (key : Str) : inEnv key = true ↔ key ∈ neededEnv :=
  inEnvLoop_iff key neededEnv

theorem neededEnv_no_eq : ∀ k ∈ neededEnv, '=' ∉ k := by decide

theorem WINE_mem : "WINE".toList ∈ neededEnv := by decide

theorem TERM_mem : "TERM".toList ∈ neededEnv := by decide

theorem SHELL_mem : "SHELL".toList ∈ neededEnv := by decide

theorem PATH_mem : "PATH".toList ∈ neededEnv := by decide

/-! ## The environment extractor: lemmas -/

theorem environStep_bare (m : EnvMap) (ev : Str) (h : '=' ∉ ev) :
    environStep m ev = if ev = "WINE".toList then m.set "WINE".toList [] else m := by
  simp [environStep, SplitN_two_none '=' ev h]

theorem environStep_kv (m : EnvMap) (k v : Str) (h : '=' ∉ k) :
    environStep m (k ++ '=' :: v) = if inEnv k = true then m.set k v else m := by
  simp [environStep, SplitN_two_some '=' k v h]

theorem environStep_keys_sub (m : EnvMap) (ev k : Str)
    (hk : k ∈ (environStep m ev).keys) : k ∈ m.keys ∨ k ∈ neededEnv := by
  rcases cut_first '=' ev with h | ⟨a, b, ha, rfl⟩
  · rw [environStep_bare m ev h] at hk
    split at hk
    · rcases (keys_set _ _ _ m).1 hk with e | e
      · right; rw [e]; exact WINE_mem
      · left; exact e
    · left; exact hk
  · rw [environStep_kv m a b ha] at hk
    split at hk
    · rename_i hin
      rcases (keys_set _ _ _ m).1 hk with e | e
      · right; rw [e]; exact (inEnv_iff a).1 hin
      · left; exact e
    · left; exact hk

theorem environStep_keys_mono (m : EnvMap) (ev k : Str) (hk : k ∈ m.keys) :
    k ∈ (environStep m ev).keys := by
  rcases cut_first '=' ev with h | ⟨a, b, ha, rfl⟩
  · rw [environStep_bare m ev h]
    split
    · exact (keys_set _ _ _ m).2 (Or.inr hk)
    · exact hk
  · rw [environStep_kv m a b ha]
    split
    · exact (keys_set _ _ _ m).2 (Or.inr hk)
    · exact hk

theorem foldl_keys_sub (k : Str) : ∀ (records : List Str) (m : EnvMap),
    k ∈ (records.foldl environStep m).keys → k ∈ m.keys ∨ k ∈ neededEnv := by
  intro records
  induction records with
  | nil => intro m h; exact Or.inl h
  | cons ev rest ih =>
    intro m h
    rcases ih (environStep m ev) h with h1 | h1
    · exact environStep_keys_sub m ev k h1
    · exact Or.inr h1

theorem foldl_keys_mono (k : Str) : ∀ (records : List Str) (m : EnvMap),
    k ∈ m.keys → k ∈ (records.foldl environStep m).keys := by
  intro records
  induction records with
  | nil => intro m h; exact h
  | cons ev rest ih =>
    intro m h
    exact ih (environStep m ev) (environStep_keys_mono m ev k h)

theorem environCopy_keys_sub (records : List Str) (k : Str)
    (hk : k ∈ (environCopy records).keys) : k ∈ neededEnv := by
  rcases foldl_keys_sub k records [] hk with h | h
  · simp [EnvMap.keys] at h
  · exact h

theorem environDefaults_keys (m : EnvMap) (k : Str) :
    k ∈ (environDefaults m).keys ↔
      k ∈ m.keys ∨ k = "TERM".toList ∨ k = "SHELL".toList := by
  cases hT : m.get? "TERM".toList with
  | none =>
    cases hS : (m.set "TERM".toList "xterm".toList).get? "SHELL".toList with
    | none =>
      simp only [environDefaults, hT, hS, keys_set]
      tauto
    | some s =>
      have hS2 : "SHELL".toList ∈ (m.set "TERM".toList "xterm".toList).keys :=
        (mem_keys_iff _ _).2 ⟨s, hS⟩
      simp only [environDefaults, hT, hS, keys_set]
      constructor
      · tauto
      · rintro (h | h | h)
        · exact Or.inr h
        · exact Or.inl h
        · rw [h]; exact (keys_set _ _ _ _).1 hS2
  | some t =>
    have hT2 : "TERM".toList ∈ m.keys := (mem_keys_iff _ _).2 ⟨t, hT⟩
    cases hS : m.get? "SHELL".toList with
    | none =>
      simp only [environDefaults, hT, hS, keys_set]
      constructor
      · tauto
      · rintro (h | h | h)
        · exact Or.inr h
        · rw [h]; exact Or.inr hT2
        · exact Or.inl h
    | some s =>
      have hS2 : "SHELL".toList ∈ m.keys := (mem_keys_iff _ _).2 ⟨s, hS⟩
      simp only [environDefaults, hT, hS]
      constructor
      · tauto
      · rintro (h | h | h)
        · exact h
        · rw [h]; exact hT2
        · rw [h]; exact hS2

theorem environ_ok (buff : Str) :
    environ (.ok buff) = .ok (environDefaults (environCopy (Split buff [NUL]))) := rfl

theorem environ_keys_sub (buff : Str) (k : Str)
    (hk : k ∈ (environDefaults (environCopy (Split buff [NUL]))).keys) :
    k ∈ neededEnv := by
  rcases (environDefaults_keys _ k).1 hk with h | h | h
  · exact environCopy_keys_sub _ k h
  · rw [h]; exact TERM_mem
  · rw [h]; exact SHELL_mem

theorem environCopy_append (pre : List Str) (ev : Str) (post : List Str) :
    environCopy (pre ++ ev :: post) =
      post.foldl environStep (environStep (environCopy pre) ev) := by
  simp [environCopy, List.foldl_append]

theorem fixPath_keys (fuel : Nat) (env : EnvMap) (osPath : Str) (m2 : EnvMap)
    (h : fixPath fuel env osPath = some (.ok m2)) (k : Str) :
    k ∈ m2.keys ↔ k = "PATH".toList ∨ k ∈ env.keys := by
  unfold fixPath at h
  simp only at h
  split at h
  · exact absurd h (by simp)
  · exact absurd h (by simp)
  · exact absurd h (by simp)
  · simp only [Option.some.injEq, Outcome.ok.injEq] at h
    rw [← h]
    exact keys_set _ _ _ env

theorem Join_cons_cons (a b : Str) (rest : List Str) (sep : Str) :
    Join (a :: b :: rest) sep = a ++ sep ++ Join (b :: rest) sep := rfl

theorem genSplit_Join (c : Char) : ∀ (recs : List Str) (n : Nat), recs ≠ [] →
    (∀ r ∈ recs, c ∉ r) → recs.length ≤ n + 1 → genSplit [c] n (Join recs [c]) = recs := by
  intro recs
  induction recs with
  | nil => intro n h; exact absurd rfl h
  | cons a rest ih =>
    intro n _ hfree hlen
    have ha : c ∉ a := hfree a (by simp)
    cases rest with
    | nil =>
      cases n with
      | zero => simp [Join, genSplit]
      | succ n => simp [Join, genSplit, Index_single_none c a ha]
    | cons b rest2 =>
      cases n with
      | zero => simp at hlen
      | succ n =>
        have hrest : ∀ r ∈ b :: rest2, c ∉ r := fun r hr => hfree r (by simp [hr])
        have hlen2 : (b :: rest2).length ≤ n + 1 := by simpa using hlen
        have hidx : Index (a ++ c :: Join (b :: rest2) [c]) [c] = some a.length :=
          Index_single_append c _ a ha
        have hJ : Join (a :: b :: rest2) [c] = a ++ c :: Join (b :: rest2) [c] := by
          simp [Join_cons_cons]
        rw [hJ, genSplit, hidx]
        simp only [List.take_left', List.length_singleton, List.drop_left',
          List.drop_succ_cons, List.drop_zero]
        have hd : List.drop (a.length + 1) (a ++ c :: Join (b :: rest2) [c])
            = Join (b :: rest2) [c] := by
          rw [List.drop_append_eq_append_drop]
          simp
        rw [hd, ih n (by simp) hrest hlen2]

theorem length_le_Join (c : Char) : ∀ recs : List Str,
    recs.length ≤ (Join recs [c]).length + 1 := by
  intro recs
  induction recs with
  | nil => simp
  | cons a rest ih =>
    cases rest with
    | nil => simp
    | cons b rest2 =>
      rw [Join_cons_cons]
      simp only [List.length_cons, List.length_append, List.length_singleton] at ih ⊢
      omega

/-- `Split` undoes `Join` on pieces free of the separator. -/
theorem Split_Join (c : Char) (recs : List Str) (hne : recs ≠ [])
    (hfree : ∀ r ∈ recs, c ∉ r) : Split (Join recs [c]) [c] = recs :=
  genSplit_Join c recs _ hne hfree (length_le_Join c recs)

theorem environStep_get?_other (m : EnvMap) (ev K : Str)
    (hkv : ∀ V, ev ≠ K ++ '=' :: V) (hbare : ev = "WINE".toList → K ≠ "WINE".toList) :
    (environStep m ev).get? K = m.get? K := by
  rcases cut_first '=' ev with h | ⟨a, b, ha, rfl⟩
  · rw [environStep_bare m ev h]
    split
    · rename_i hw
      exact get?_set_ne _ _ _ (fun e => hbare hw e.symm) m
    · rfl
  · rw [environStep_kv m a b ha]
    split
    · exact get?_set_ne _ _ _ (fun e => hkv b (by rw [e])) m
    · rfl

theorem foldl_get?_other (K : Str) : ∀ (records : List Str) (m : EnvMap),
    (∀ ev ∈ records, (∀ V, ev ≠ K ++ '=' :: V) ∧
      (ev = "WINE".toList → K ≠ "WINE".toList)) →
    (records.foldl environStep m).get? K = m.get? K := by
  intro records
  induction records with
  | nil => intro m _; rfl
  | cons ev rest ih =>
    intro m h
    have h1 := h ev (by simp)
    rw [List.foldl_cons, ih (environStep m ev) (fun e he => h e (by simp [he])),
      environStep_get?_other m ev K h1.1 h1.2]

/-- After the copy pass a whitelisted name holds the value of its last record. -/
theorem environCopy_get?_last (K V : Str) (hK : K ∈ neededEnv) (pre post : List Str)
    (hpost : ∀ ev ∈ post, (∀ V2, ev ≠ K ++ '=' :: V2) ∧
      (ev = "WINE".toList → K ≠ "WINE".toList)) :
    (environCopy (pre ++ (K ++ '=' :: V) :: post)).get? K = some V := by
  rw [environCopy_append, foldl_get?_other K post _ hpost,
    environStep_kv _ K V (neededEnv_no_eq K hK), if_pos ((inEnv_iff K).2 hK)]
  exact get?_set_self K V _

theorem environCopy_get?_none_iff (K : Str) (hK : K ∈ neededEnv)
    (hW : K ≠ "WINE".toList) (records : List Str) :
    (environCopy records).get? K = none ↔ ∀ V, K ++ '=' :: V ∉ records := by
  constructor
  · intro hnone V hmem
    obtain ⟨pre, post, hsplit⟩ := List.append_of_mem hmem
    have hkey : K ∈ (environCopy records).keys := by
      rw [hsplit, environCopy_append, environStep_kv _ K V (neededEnv_no_eq K hK),
        if_pos ((inEnv_iff K).2 hK)]
      exact foldl_keys_mono K post _ ((keys_set _ _ _ _).2 (Or.inl rfl))
    exact (get?_none_iff K _).1 hnone hkey
  · intro h
    have := foldl_get?_other K records []
      (fun ev hev => ⟨fun V e => h V (e ▸ hev), fun _ => hW⟩)
    simpa [environCopy, EnvMap.get?] using this

theorem environDefaults_get?_some (m : EnvMap) (K v : Str) (h : m.get? K = some v) :
    (environDefaults m).get? K = some v := by
  have hT : m.get? "TERM".toList = none → "TERM".toList ≠ K := by
    intro hn e; rw [e, h] at hn; exact absurd hn (by simp)
  cases hT2 : m.get? "TERM".toList with
  | none =>
    have h1 : (m.set "TERM".toList "xterm".toList).get? K = some v := by
      rw [get?_set_ne _ _ _ (hT hT2)]; exact h
    cases hS : (m.set "TERM".toList "xterm".toList).get? "SHELL".toList with
    | none =>
      have hne : "SHELL".toList ≠ K := by
        intro e; rw [e, h1] at hS; exact absurd hS (by simp)
      simp only [environDefaults, hT2, hS]
      rw [get?_set_ne _ _ _ hne]; exact h1
    | some s => simp only [environDefaults, hT2, hS]; exact h1
  | some t =>
    cases hS : m.get? "SHELL".toList with
    | none =>
      have hne : "SHELL".toList ≠ K := by
        intro e; rw [e, h] at hS; exact absurd hS (by simp)
      simp only [environDefaults, hT2, hS]
      rw [get?_set_ne _ _ _ hne]; exact h
    | some s => simp only [environDefaults, hT2, hS]; exact h

theorem environDefaults_TERM_none (m : EnvMap) (h : m.get? "TERM".toList = none) :
    (environDefaults m).get? "TERM".toList = some "xterm".toList := by
  have hne : "SHELL".toList ≠ "TERM".toList := by decide
  have h1 : (m.set "TERM".toList "xterm".toList).get? "TERM".toList
      = some "xterm".toList := get?_set_self _ _ m
  cases hS : (m.set "TERM".toList "xterm".toList).get? "SHELL".toList with
  | none =>
    simp only [environDefaults, h, hS]
    rw [get?_set_ne _ _ _ hne]; exact h1
  | some s => simp only [environDefaults, h, hS]; exact h1

theorem environDefaults_SHELL_none (m : EnvMap) (h : m.get? "SHELL".toList = none) :
    (environDefaults m).get? "SHELL".toList = some "/bin/bash".toList := by
  have hne : "TERM".toList ≠ "SHELL".toList := by decide
  cases hT : m.get? "TERM".toList with
  | none =>
    have h1 : (m.set "TERM".toList "xterm".toList).get? "SHELL".toList = none := by
      rw [get?_set_ne _ _ _ hne]; exact h
    simp only [environDefaults, hT, h1]
    exact get?_set_self _ _ _
  | some t =>
    simp only [environDefaults, hT, h]
    exact get?_set_self _ _ _

/-- What `environ` holds for a name with a default `d`, in terms of the copy
pass: the default exactly when nothing was copied, the copied value otherwise. -/
theorem environ_default_spec (K d : Str) (hK : K ∈ neededEnv) (hW : K ≠ "WINE".toList)
    (hd : ∀ m : EnvMap, m.get? K = none → (environDefaults m).get? K = some d)
    (records : List Str) :
    ((environCopy records).get? K = none ↔ ∀ V, K ++ '=' :: V ∉ records) ∧
    ((environCopy records).get? K = none →
      (environDefaults (environCopy records)).get? K = some d) ∧
    (∀ v, (environCopy records).get? K = some v →
      (environDefaults (environCopy records)).get? K = some v) ∧
    (∀ pre V post, records = pre ++ (K ++ '=' :: V) :: post →
      (∀ V2, K ++ '=' :: V2 ∉ post) →
      (environCopy records).get? K = some V ∧
        (environDefaults (environCopy records)).get? K = some V) := by
  refine ⟨environCopy_get?_none_iff K hK hW records, hd _,
    fun v hv => environDefaults_get?_some _ K v hv, ?_⟩
  intro pre V post hrec hpost
  have h := environCopy_get?_last K V hK pre post
    (fun ev hev => ⟨fun V2 e => hpost V2 (e ▸ hev), fun _ => hW⟩)
  rw [hrec]
  exact ⟨h, environDefaults_get?_some _ K V h⟩

/-! ## The environment extractor: the claims -/

/-- C1: for every environment block and every record `K=V` in it, `K` is a key
of the map `environ` returns if and only if `K` is one of the names of
`neededEnv`. -/
theorem environ_key_iff_whitelisted (buff K V : Str)
    (hrec : K ++ '=' :: V ∈ Split buff [NUL]) :
    ∃ m, environ (.ok buff) = .ok m ∧ (K ∈ m.keys ↔ K ∈ neededEnv) := by
  refine ⟨_, environ_ok buff, fun h => environ_keys_sub buff K h, fun h => ?_⟩
  obtain ⟨pre, post, hsplit⟩ := List.append_of_mem hrec
  rw [hsplit, environCopy_append, environStep_kv _ K V (neededEnv_no_eq K h),
    if_pos ((inEnv_iff K).2 h)]
  exact (environDefaults_keys _ K).2
    (Or.inl (foldl_keys_mono K post _ ((keys_set _ _ _ _).2 (Or.inl rfl))))

/-- Witness of C1: the block `FOO=1`, `PATH=/bin` keeps `PATH`. -/
theorem environ_key_iff_whitelisted_witness :
    "PATH".toList ++ '=' :: "/bin".toList ∈
        Split ("FOO=1".toList ++ NUL :: "PATH=/bin".toList) [NUL] ∧
      ∃ m, environ (.ok ("FOO=1".toList ++ NUL :: "PATH=/bin".toList)) = .ok m ∧
        ("PATH".toList ∈ m.keys ↔ "PATH".toList ∈ neededEnv) :=
  ⟨by decide, environ_key_iff_whitelisted _ "PATH".toList "/bin".toList (by decide)⟩

/-- C2: every key of the map `environ` returns is a name of `neededEnv`, and
so is every key of the map `fixPath` returns for it, whatever the block and
the `PATH` of the invoking process. -/
theorem whitelist_invariant (buff osPath : Str) (fuel : Nat) (m m2 : EnvMap)
    (henv : environ (.ok buff) = .ok m) :
    (∀ k ∈ m.keys, k ∈ neededEnv) ∧
      (fixPath fuel m osPath = some (.ok m2) → ∀ k ∈ m2.keys, k ∈ neededEnv) := by
  rw [environ_ok] at henv
  simp only [Outcome.ok.injEq] at henv
  subst henv
  refine ⟨fun k hk => environ_keys_sub buff k hk, fun hfix k hk => ?_⟩
  rcases (fixPath_keys fuel _ osPath m2 hfix k).1 hk with h | h
  · rw [h]; exact PATH_mem
  · exact environ_keys_sub buff k h

/-- Witness of C2: a block with a bare `WINE`, a two-segment `PATH` and a name
outside the whitelist; `fixPath` returns and every key is whitelisted. -/
theorem whitelist_invariant_witness :
    environ (.ok sampleBlock) = .ok sampleEnv ∧
      fixPath 2 sampleEnv "/bin".toList = some (.ok sampleFixed) ∧
      ∀ k ∈ sampleFixed.keys, k ∈ neededEnv :=
  ⟨by decide, by decide,
    (whitelist_invariant sampleBlock "/bin".toList 2 sampleEnv sampleFixed
      (by decide)).2 (by decide)⟩

/-- C3: `environ` sets `TERM` to `xterm` exactly when the copy pass left no
`TERM` (which is when the block has no record `TERM=V`), and `SHELL` to
`/bin/bash` likewise; a value copied from the block is kept, and it is the
value of the last such record.  `TERM` and `SHELL` are keys of every map
`environ` returns. -/
theorem environ_term_shell_defaults (buff : Str) :
    ∃ m, environ (.ok buff) = .ok m ∧
      "TERM".toList ∈ m.keys ∧ "SHELL".toList ∈ m.keys ∧
      (((environCopy (Split buff [NUL])).get? "TERM".toList = none ↔
          ∀ V, "TERM".toList ++ '=' :: V ∉ Split buff [NUL]) ∧
        ((environCopy (Split buff [NUL])).get? "TERM".toList = none →
          m.get? "TERM".toList = some "xterm".toList) ∧
        (∀ v, (environCopy (Split buff [NUL])).get? "TERM".toList = some v →
          m.get? "TERM".toList = some v) ∧
        (∀ pre V post, Split buff [NUL] = pre ++ ("TERM".toList ++ '=' :: V) :: post →
          (∀ V2, "TERM".toList ++ '=' :: V2 ∉ post) →
          (environCopy (Split buff [NUL])).get? "TERM".toList = some V ∧
            m.get? "TERM".toList = some V)) ∧
      (((environCopy (Split buff [NUL])).get? "SHELL".toList = none ↔
          ∀ V, "SHELL".toList ++ '=' :: V ∉ Split buff [NUL]) ∧
        ((environCopy (Split buff [NUL])).get? "SHELL".toList = none →
          m.get? "SHELL".toList = some "/bin/bash".toList) ∧
        (∀ v, (environCopy (Split buff [NUL])).get? "SHELL".toList = some v →
          m.get? "SHELL".toList = some v) ∧
        (∀ pre V post, Split buff [NUL] = pre ++ ("SHELL".toList ++ '=' :: V) :: post →
          (∀ V2, "SHELL".toList ++ '=' :: V2 ∉ post) →
          (environCopy (Split buff [NUL])).get? "SHELL".toList = some V ∧
            m.get? "SHELL".toList = some V)) :=
  ⟨_, environ_ok buff,
    (environDefaults_keys _ _).2 (Or.inr (Or.inl rfl)),
    (environDefaults_keys _ _).2 (Or.inr (Or.inr rfl)),
    environ_default_spec "TERM".toList "xterm".toList TERM_mem (by decide)
      environDefaults_TERM_none (Split buff [NUL]),
    environ_default_spec "SHELL".toList "/bin/bash".toList SHELL_mem (by decide)
      environDefaults_SHELL_none (Split buff [NUL])⟩

/-- Witness of C3: a block that supplies `TERM=vt100` and no `SHELL`. -/
theorem environ_term_shell_defaults_witness :
    ∃ m, environ (.ok ("TERM=vt100".toList ++ NUL :: "FOO=1".toList)) = .ok m ∧
      m.get? "TERM".toList = some "vt100".toList ∧
      m.get? "SHELL".toList = some "/bin/bash".toList := by
  obtain ⟨m, hm, _, _, hT, hS⟩ :=
    environ_term_shell_defaults ("TERM=vt100".toList ++ NUL :: "FOO=1".toList)
  refine ⟨m, hm, (hT.2.2.2 [] "vt100".toList ["FOO=1".toList] (by decide) ?_).2,
    hS.2.1 (by decide)⟩
  intro V2 h
  have h2 : some 'T' = some 'F' := congrArg List.head? (List.mem_singleton.1 h)
  exact absurd h2 (by decide)

/-- C4: records are split at the first `=` only.  For a whitelisted name `K`
and a value `V` without a zero byte (it may hold any number of `=`, or be
empty), a block whose only record for `K` is `K=V` gives a map in which `K`
holds exactly `V`. -/
theorem environ_value_verbatim (K V : Str) (pre post : List Str)
    (hK : K ∈ neededEnv) (hV : NUL ∉ V)
    (hnul : ∀ r ∈ pre ++ post, NUL ∉ r)
    (honly : ∀ r ∈ pre ++ post, r ≠ K ∧ ¬ (K ++ ['=']) <+: r) :
    ∃ m, environ (.ok (Join (pre ++ (K ++ '=' :: V) :: post) [NUL])) = .ok m ∧
      m.get? K = some V := by
  have hKnul : NUL ∉ K := by
    have : ∀ k ∈ neededEnv, NUL ∉ k := by decide
    exact this K hK
  have hfree : ∀ r ∈ pre ++ (K ++ '=' :: V) :: post, NUL ∉ r := by
    intro r hr
    rcases List.mem_append.1 hr with h | h
    · exact hnul r (List.mem_append.2 (Or.inl h))
    · rcases List.mem_cons.1 h with h | h
      · rw [h]
        have hne : NUL ≠ '=' := by decide
        simp [hKnul, hV, hne]
      · exact hnul r (List.mem_append.2 (Or.inr h))
  refine ⟨_, environ_ok _, ?_⟩
  rw [Split_Join NUL _ (by simp) hfree]
  refine environDefaults_get?_some _ K V (environCopy_get?_last K V hK pre post ?_)
  intro ev hev
  have h := honly ev (List.mem_append.2 (Or.inr hev))
  refine ⟨fun V2 e => h.2 ⟨V2, ?_⟩, fun hw e => h.1 (by rw [hw, e])⟩
  rw [e]; simp

/-- Witness of C4: the value `a=b==c` of `DXVK` is kept whole. -/
theorem environ_value_verbatim_witness :
    ∃ m, environ (.ok (Join (["FOO=1".toList] ++
        ("DXVK".toList ++ '=' :: "a=b==c".toList) :: ["TERM=x".toList]) [NUL])) = .ok m ∧
      m.get? "DXVK".toList = some "a=b==c".toList :=
  environ_value_verbatim "DXVK".toList "a=b==c".toList ["FOO=1".toList] ["TERM=x".toList]
    (by decide) (by decide) (by decide) (by decide)

/-- C5: a record without `=` changes the map only when it is exactly `WINE`,
which is then registered with the empty value.  Any other such record (the
empty record after a trailing zero byte, a bare `PATH` or `TERM`) leaves the
map of every iteration as it is, and `environ` returns what it returns for
the records without it. -/
theorem environ_bare_record (buff : Str) (pre post : List Str) (ev : Str)
    (hsplit : Split buff [NUL] = pre ++ ev :: post) (hbare : '=' ∉ ev) :
    (ev ≠ "WINE".toList →
      (∀ emap, environStep emap ev = emap) ∧
      environ (.ok buff) = .ok (environDefaults (environCopy (pre ++ post)))) ∧
    (ev = "WINE".toList →
      (∀ emap, environStep emap ev = emap.set "WINE".toList [] ∧
        (environStep emap ev).get? "WINE".toList = some []) ∧
      environ (.ok buff) = .ok (environDefaults
        (post.foldl environStep ((environCopy pre).set "WINE".toList [])))) := by
  constructor
  · intro hne
    have hstep : ∀ emap, environStep emap ev = emap := fun emap => by
      rw [environStep_bare emap ev hbare, if_neg hne]
    refine ⟨hstep, ?_⟩
    rw [environ_ok, hsplit, environCopy_append, hstep]
    simp [environCopy, List.foldl_append]
  · intro heq
    have hstep : ∀ emap, environStep emap ev = emap.set "WINE".toList [] := fun emap => by
      rw [environStep_bare emap ev hbare, if_pos heq]
    refine ⟨fun emap => ⟨hstep emap, ?_⟩, ?_⟩
    · rw [hstep]; exact get?_set_self _ _ _
    · rw [environ_ok, hsplit, environCopy_append, hstep]

/-- Witness of C5: in the block `TERM=x`, `PATH`, empty record, the bare `PATH`
is dropped. -/
theorem environ_bare_record_witness :
    environ (.ok ("TERM=x".toList ++ NUL :: "PATH".toList ++ [NUL]))
      = .ok (environDefaults (environCopy (["TERM=x".toList] ++ [[]]))) ∧
    environ (.ok ("TERM=x".toList ++ NUL :: "PATH".toList ++ [NUL]))
      = .ok [("TERM".toList, "x".toList), ("SHELL".toList, "/bin/bash".toList)] :=
  ⟨((environ_bare_record ("TERM=x".toList ++ NUL :: "PATH".toList ++ [NUL])
      ["TERM=x".toList] [[]] "PATH".toList (by decide) (by decide)).1 (by decide)).2,
    by decide⟩

/-! ## The process locator: lemmas -/

theorem Index_isSome_iff (sub : Str) : ∀ s : Str, (Index s sub).isSome = true ↔ sub <:+: s := by
  intro s
  induction s with
  | nil =>
    by_cases h : sub = []
    · simp [Index, h]
    · simp [Index, h]
  | cons a t ih =>
    by_cases hp : hasPrefixOf (a :: t) sub = true
    · have hp2 : sub <+: a :: t := List.isPrefixOf_iff_prefix.1 hp
      simp only [Index, hp, if_true, Option.isSome_some, true_iff]
      exact hp2.isInfix
    · have hp2 : ¬ sub <+: a :: t := fun e => hp (List.isPrefixOf_iff_prefix.2 e)
      simp only [Index, hp, Bool.false_eq_true, if_false, Option.isSome_map', ih,
        List.infix_cons_iff, hp2, false_or]

theorem Contains_iff (s sub : Str) : Contains s sub = true ↔ sub <:+: s :=
  Index_isSome_iff sub s

theorem Contains_exe (s : Str) (h : Contains s "ffxivboot.exe".toList = true) :
    Contains s ".exe".toList = true := by
  rw [Contains_iff] at h ⊢
  have h0 : ".exe".toList <:+: "ffxivboot.exe".toList := by decide
  exact h0.trans h

theorem dropWhile_none (p : Char → Bool) :
    ∀ s : Str, (∀ c ∈ s, p c = false) → s.dropWhile p = s := by
  intro s h
  cases s with
  | nil => rfl
  | cons a t => simp [List.dropWhile, h a (by simp)]

theorem TrimSpace_id (s : Str) (h : ∀ c ∈ s, isSpace c = false) : TrimSpace s = s := by
  unfold TrimSpace
  rw [dropWhile_none isSpace s h,
    dropWhile_none isSpace s.reverse (fun c hc => h c (List.mem_reverse.1 hc)),
    List.reverse_reverse]

theorem isDigit_not_space (c : Char) (h : isDigit c = true) : isSpace c = false := by
  simp only [isDigit, Bool.and_eq_true, decide_eq_true_eq] at h
  simp only [isSpace, Bool.or_eq_false_iff, Bool.and_eq_false_iff, decide_eq_false_iff_not]
  omega

theorem foldl_digits_ge (ds : Str) : ∀ n : Nat,
    n ≤ ds.foldl (fun n c => n * 10 + (c.toNat - 48)) n := by
  induction ds with
  | nil => intro n; exact Nat.le_refl n
  | cons c cs ih =>
    intro n
    have := ih (n * 10 + (c.toNat - 48))
    simp only [List.foldl_cons]
    omega

theorem parseUintLoop_digits : ∀ (ds : Str) (n : Nat), (∀ c ∈ ds, isDigit c = true) →
    ds.foldl (fun n c => n * 10 + (c.toNat - 48)) n < 2 ^ 64 →
    parseUintLoop ds n = .ok (ds.foldl (fun n c => n * 10 + (c.toNat - 48)) n) := by
  intro ds
  induction ds with
  | nil => intro n _ _; rfl
  | cons c cs ih =>
    intro n hd hlt
    have hc := hd c (by simp)
    simp only [isDigit, Bool.and_eq_true, decide_eq_true_eq] at hc
    have hge := foldl_digits_ge cs (n * 10 + (c.toNat - 48))
    simp only [List.foldl_cons] at hlt ⊢
    have hsmall : ¬ n * 10 + (c.toNat - 48) ≥ 2 ^ 64 := by omega
    simp only [parseUintLoop, hc, and_self, if_true, hsmall, if_false]
    exact ih _ (fun x hx => hd x (by simp [hx])) hlt

theorem Atoi_digits (ds : Str) (hne : ds ≠ []) (hd : ∀ c ∈ ds, isDigit c = true)
    (hlt : decimalValue ds < 2 ^ 63) : Atoi ds = (((decimalValue ds : Nat) : Int), true) := by
  cases ds with
  | nil => exact absurd rfl hne
  | cons c cs =>
    have hc := hd c (by simp)
    simp only [isDigit, Bool.and_eq_true, decide_eq_true_eq] at hc
    have hminus : c ≠ '-' := by
      intro e; rw [e] at hc; exact absurd hc (by decide)
    have hplus : c ≠ '+' := by
      intro e; rw [e] at hc; exact absurd hc (by decide)
    have hp := parseUintLoop_digits (c :: cs) 0 hd
      (by unfold decimalValue at hlt; omega)
    have hlt2 : ¬ (c :: cs).foldl (fun n c => n * 10 + (c.toNat - 48)) 0 ≥ 2 ^ 63 := by
      unfold decimalValue at hlt; omega
    simp only [decimalValue, List.foldl_cons, Nat.zero_mul, Nat.zero_add] at hlt
    simp [Atoi, hminus, hplus, hp, hlt2, decimalValue]
    omega

theorem detectLoop_cons_error (e : ProcEntry) (rest : List ProcEntry) (err : String)
    (h : e.cmdline = .error err) : detectLoop (e :: rest) = detectLoop rest := by
  simp [detectLoop, h]

theorem detectLoop_cons_short (e : ProcEntry) (rest : List ProcEntry) (buff : Str)
    (h : e.cmdline = .ok buff) (hlen : (Split buff [NUL]).length < 2) :
    detectLoop (e :: rest) = detectLoop rest := by
  simp [detectLoop, h, hlen]

theorem detectLoop_cons_tokens (e : ProcEntry) (rest : List ProcEntry) (buff t0 t1 : Str)
    (l : List Str) (h : e.cmdline = .ok buff) (hs : Split buff [NUL] = t0 :: t1 :: l) :
    detectLoop (e :: rest) =
      if Contains t1 ".exe".toList = false then detectLoop rest
      else if Contains t1 "ffxivboot.exe".toList = true then
        if e.path.length < 6 then .panic "slice bounds out of range"
        else .ok (Atoi (TrimSpace (e.path.drop 6))).1
      else detectLoop rest := by
  simp [detectLoop, h, hs]

theorem detectLoop_not_target (e : ProcEntry) (rest : List ProcEntry)
    (h : e.isTarget = false) : detectLoop (e :: rest) = detectLoop rest := by
  cases hc : e.cmdline with
  | error err => exact detectLoop_cons_error e rest err hc
  | ok buff =>
    cases hs : Split buff [NUL] with
    | nil => exact detectLoop_cons_short e rest buff hc (by simp [hs])
    | cons t0 l =>
      cases l with
      | nil => exact detectLoop_cons_short e rest buff hc (by simp [hs])
      | cons t1 l2 =>
        have ht : Contains t1 "ffxivboot.exe".toList = false := by
          simpa [ProcEntry.isTarget, hc, hs] using h
        rw [detectLoop_cons_tokens e rest buff t0 t1 l2 hc hs]
        simp only [ht, Bool.false_eq_true, if_false, ite_self]

theorem detectLoop_no_exe (e : ProcEntry) (rest : List ProcEntry) (buff : Str)
    (hc : e.cmdline = .ok buff)
    (h : (Split buff [NUL]).length < 2 ∨
      ∃ t1, (Split buff [NUL]).get? 1 = some t1 ∧ Contains t1 ".exe".toList = false) :
    detectLoop (e :: rest) = detectLoop rest := by
  rcases h with h | ⟨t1, hget, ht⟩
  · exact detectLoop_cons_short e rest buff hc h
  · cases hs : Split buff [NUL] with
    | nil => rw [hs] at hget; simp at hget
    | cons t0 l =>
      cases l with
      | nil => rw [hs] at hget; simp at hget
      | cons t2 l2 =>
        rw [hs] at hget
        simp only [List.get?_cons_succ, List.get?_cons_zero, Option.some.injEq] at hget
        subst hget
        rw [detectLoop_cons_tokens e rest buff t0 t2 l2 hc hs]
        simp only [ht, if_true]

theorem pid?_spec (e : ProcEntry) (n : Nat) (h : e.pid? = some n) (hn : n < 2 ^ 63) :
    ¬ e.path.length < 6 ∧ (Atoi (TrimSpace (e.path.drop 6))).1 = (n : Int) := by
  unfold ProcEntry.pid? at h
  split at h
  · rename_i hcond
    obtain ⟨_, hne, hall⟩ := hcond
    simp only [Option.some.injEq] at h
    have hd : ∀ c ∈ e.path.drop 6, isDigit c = true := List.all_eq_true.1 hall
    constructor
    · intro hlen
      exact hne (List.drop_eq_nil_of_le (by omega))
    · rw [TrimSpace_id _ (fun c hc => isDigit_not_space c (hd c hc)),
        Atoi_digits _ hne hd (by rw [h]; exact hn), h]
  · exact absurd h (by simp)

theorem detectLoop_target (e : ProcEntry) (rest : List ProcEntry) (n : Nat)
    (ht : e.isTarget = true) (hp : e.pid? = some n) (hn : n < 2 ^ 63) :
    detectLoop (e :: rest) = .ok (n : Int) := by
  cases hc : e.cmdline with
  | error err => simp [ProcEntry.isTarget, hc] at ht
  | ok buff =>
    cases hs : Split buff [NUL] with
    | nil => simp [ProcEntry.isTarget, hc, hs] at ht
    | cons t0 l =>
      cases l with
      | nil => simp [ProcEntry.isTarget, hc, hs] at ht
      | cons t1 l2 =>
        have ht1 : Contains t1 "ffxivboot.exe".toList = true := by
          simpa [ProcEntry.isTarget, hc, hs] using ht
        have hspec := pid?_spec e n hp hn
        rw [detectLoop_cons_tokens e rest buff t0 t1 l2 hc hs]
        simp only [ht1, Contains_exe t1 ht1, hspec.1, hspec.2, Bool.true_eq_false, if_false,
          if_true]

theorem detectLoop_prefix (pre : List ProcEntry) (rest : List ProcEntry)
    (h : ∀ x ∈ pre, x.isTarget = false) : detectLoop (pre ++ rest) = detectLoop rest := by
  induction pre with
  | nil => rfl
  | cons x xs ih =>
    rw [List.cons_append, detectLoop_not_target x _ (h x (by simp))]
    exact ih (fun y hy => h y (by simp [hy]))

theorem first_target : ∀ table : List ProcEntry, (∃ e ∈ table, e.isTarget = true) →
    ∃ pre e post, table = pre ++ e :: post ∧ (∀ x ∈ pre, x.isTarget = false) ∧
      e.isTarget = true := by
  intro table
  induction table with
  | nil => rintro ⟨e, he, _⟩; simp at he
  | cons x xs ih =>
    rintro ⟨e, he, ht⟩
    by_cases hx : x.isTarget = true
    · exact ⟨[], x, xs, rfl, by simp, hx⟩
    · have hx2 : x.isTarget = false := by simpa using hx
      rcases List.mem_cons.1 he with h | h
      · rw [h] at ht; exact absurd ht hx
      · obtain ⟨pre, e2, post, hsplit, hpre, ht2⟩ := ih ⟨e, h, ht⟩
        refine ⟨x :: pre, e2, post, by rw [hsplit]; rfl, ?_, ht2⟩
        intro y hy
        rcases List.mem_cons.1 hy with h2 | h2
        · rw [h2]; exact hx2
        · exact hpre y h2

theorem detectLoop_congr (x : ProcEntry) (l1 l2 : List ProcEntry)
    (h : detectLoop l1 = detectLoop l2) : detectLoop (x :: l1) = detectLoop (x :: l2) := by
  simp only [detectLoop, h]

/-! ## The process locator: the claims -/

/-- C6: with no override (`-p` is `-1`) and a process table of entries
`/proc/<n>`, `n` a positive value of `int`: `detectFFXIVPID` returns the `n`
of the first entry, in the order of the table, whose `cmdline` is readable,
has at least two tokens and a second token containing `ffxivboot.exe`
(entries before it, unreadable ones included, are passed over); and it
returns the error `process not found` if and only if no entry is such. -/
theorem detect_first_match (table : List ProcEntry)
    (hwf : ∀ e ∈ table, e.wellFormed = true) :
    (∀ pre e post, table = pre ++ e :: post → (∀ x ∈ pre, x.isTarget = false) →
      e.isTarget = true →
      ∃ n : Nat, e.pid? = some n ∧ detectFFXIVPID (-1) table = .ok (n : Int)) ∧
    (detectFFXIVPID (-1) table = .error "process not found" ↔
      ∀ e ∈ table, e.isTarget = false) := by
  have hpid : ∀ e ∈ table, ∃ n : Nat, e.pid? = some n ∧ 0 < n ∧ n < 2 ^ 63 := by
    intro e he
    have h := hwf e he
    unfold ProcEntry.wellFormed at h
    cases hp : e.pid? with
    | none => simp [hp] at h
    | some n =>
      simp only [hp, Bool.and_eq_true, decide_eq_true_eq] at h
      exact ⟨n, rfl, h.1, h.2⟩
  have hfirst : ∀ pre e post, table = pre ++ e :: post →
      (∀ x ∈ pre, x.isTarget = false) → e.isTarget = true →
      ∃ n : Nat, e.pid? = some n ∧ detectFFXIVPID (-1) table = .ok (n : Int) := by
    intro pre e post hsplit hpre ht
    obtain ⟨n, hn, hpos, hlt⟩ := hpid e (by rw [hsplit]; simp)
    refine ⟨n, hn, ?_⟩
    have hloop : detectLoop table = .ok (n : Int) := by
      rw [hsplit, detectLoop_prefix pre _ hpre]
      exact detectLoop_target e post n ht hn hlt
    have hpos2 : (n : Int) > 0 := by exact_mod_cast hpos
    simp only [detectFFXIVPID, hloop, hpos2, if_true]
    simp
  refine ⟨hfirst, ?_, ?_⟩
  · intro herr e he
    by_contra hne
    have ht : e.isTarget = true := by simpa using hne
    obtain ⟨pre, e2, post, hsplit, hpre, ht2⟩ := first_target table ⟨e, he, ht⟩
    obtain ⟨n, _, hok⟩ := hfirst pre e2 post hsplit hpre ht2
    rw [hok] at herr
    exact absurd herr (by simp)
  · intro hall
    have hloop : detectLoop table = .ok (-1) := by
      have := detectLoop_prefix table [] hall
      rw [List.append_nil] at this
      rw [this]; rfl
    simp [detectFFXIVPID, hloop]

/-- Witness of C6: in `sampleTable` the scan passes `init` and the unreadable
entry, and stops at process 42 although process 43 matches too. -/
theorem detect_first_match_witness :
    (∀ e ∈ sampleTable, e.wellFormed = true) ∧
      (∃ n : Nat, ProcEntry.pid? ⟨"/proc/42".toList,
          .ok ("wine".toList ++ NUL :: "C:/ffxivboot.exe".toList ++ [NUL])⟩ = some n ∧
        detectFFXIVPID (-1) sampleTable = .ok (n : Int)) ∧
      detectFFXIVPID (-1) sampleTable = .ok 42 :=
  ⟨by decide,
    (detect_first_match sampleTable (by decide)).1
      [⟨"/proc/1".toList, .ok "init".toList⟩, ⟨"/proc/7".toList, .error "permission denied"⟩]
      ⟨"/proc/42".toList, .ok ("wine".toList ++ NUL :: "C:/ffxivboot.exe".toList ++ [NUL])⟩
      [⟨"/proc/43".toList, .ok ("wine".toList ++ NUL :: "ffxivboot.exe".toList)⟩]
      rfl (by decide) (by decide),
    by decide⟩

/-- C7: a candidate whose command line has fewer than two tokens (an empty
`cmdline` included) or whose second token does not contain `.exe` is passed
over without an error and without a panic: the scan of it alone finds
nothing, and `detectFFXIVPID` returns what it returns for the table without
that candidate. -/
theorem detect_skips_candidate (pid : Int) (pre post : List ProcEntry) (e : ProcEntry)
    (buff : Str) (hc : e.cmdline = .ok buff)
    (h : (Split buff [NUL]).length < 2 ∨
      ∃ t1, (Split buff [NUL]).get? 1 = some t1 ∧ Contains t1 ".exe".toList = false) :
    detectLoop [e] = .ok (-1) ∧
      detectFFXIVPID pid (pre ++ e :: post) = detectFFXIVPID pid (pre ++ post) := by
  constructor
  · rw [detectLoop_no_exe e [] buff hc h]; rfl
  · have hloop : detectLoop (pre ++ e :: post) = detectLoop (pre ++ post) := by
      induction pre with
      | nil => exact detectLoop_no_exe e post buff hc h
      | cons x xs ih => exact detectLoop_congr x _ _ ih
    simp only [detectFFXIVPID, hloop]

/-- Witness of C7: an entry with an empty `cmdline` in front of the game. -/
theorem detect_skips_candidate_witness :
    detectLoop [⟨"/proc/5".toList, .ok []⟩] = .ok (-1) ∧
      detectFFXIVPID (-1) ([] ++ ⟨"/proc/5".toList, .ok []⟩ :: sampleTable)
        = detectFFXIVPID (-1) ([] ++ sampleTable) :=
  detect_skips_candidate (-1) [] sampleTable ⟨"/proc/5".toList, .ok []⟩ [] rfl
    (Or.inl (by decide))

/-- C8: an override `p >= 0` (zero included) is returned unchanged and without
error, whatever the process table: the table is not scanned. -/
theorem detect_override (p : Int) (hp : 0 ≤ p) (table : List ProcEntry) :
    detectFFXIVPID p table = .ok p ∧
      ∀ table2, detectFFXIVPID p table2 = detectFFXIVPID p table := by
  have h : p > -1 := by omega
  simp [detectFFXIVPID, h]

/-- Witness of C8: the override `0` wins over the game running as process 42. -/
theorem detect_override_witness :
    detectFFXIVPID 0 sampleTable = .ok 0 ∧
      ∀ table2, detectFFXIVPID 0 table2 = detectFFXIVPID 0 sampleTable :=
  detect_override 0 (by decide) sampleTable

/-! ## The output driver: lemmas -/

theorem escapeQuotes_clean : ∀ s : Str, '"' ∉ s → escapeQuotes s = s := by
  intro s
  induction s with
  | nil => intro _; rfl
  | cons a t ih =>
    intro h
    have ha : a ≠ '"' := fun e => h (by simp [e])
    have ht : '"' ∉ t := fun e => h (by simp [e])
    simp [escapeQuotes, ha, ih ht]

theorem escapeQuotes_append (v : Str) : ∀ k : Str,
    escapeQuotes (k ++ v) = escapeQuotes k ++ escapeQuotes v := by
  intro k
  induction k with
  | nil => rfl
  | cons a t ih =>
    by_cases ha : a = '"'
    · simp [escapeQuotes, ha, ih]
    · simp [escapeQuotes, ha, ih]

theorem replaceN_quote : ∀ (n : Nat) (s : Str), s.length ≤ n →
    replaceN ['"'] ['\\', '"'] n s = escapeQuotes s := by
  intro n
  induction n with
  | zero =>
    intro s h
    have : s = [] := List.length_eq_zero.1 (Nat.le_zero.1 h)
    subst this; rfl
  | succ n ih =>
    intro s h
    rcases cut_first '"' s with hs | ⟨k, v, hk, rfl⟩
    · simp [replaceN, Index_single_none '"' s hs, escapeQuotes_clean s hs]
    · have hlen : v.length ≤ n := by
        simp only [List.length_append, List.length_cons] at h; omega
      have hd : List.drop (k.length + 1) (k ++ '"' :: v) = v := by
        rw [List.drop_append_eq_append_drop]; simp
      simp only [replaceN, Index_single_append '"' v k hk, List.length_singleton,
        List.take_left', hd, ih v hlen, escapeQuotes_append, escapeQuotes_clean k hk]
      simp [escapeQuotes]

theorem ReplaceAll_quote (s : Str) : ReplaceAll s ['"'] ['\\', '"'] = escapeQuotes s :=
  replaceN_quote s.length s (Nat.le_refl _)

theorem quote_eq (s : Str) : quote s = '"' :: escapeQuotes s ++ ['"'] := by
  simp [quote, ReplaceAll_quote]

theorem exportLine_eq (K V : Str) :
    exportLine K V = "export ".toList ++ K ++ ['='] ++ quote V ++ ['\n'] := by
  simp [exportLine, quote]

theorem escapeQuotes_head (s : Str) : (escapeQuotes s).head? ≠ some '"' := by
  cases s with
  | nil => simp [escapeQuotes]
  | cons a t =>
    by_cases ha : a = '"'
    · simp [escapeQuotes, ha]
    · simp [escapeQuotes, ha]

theorem unescape_escapeQuotes : ∀ s : Str, unescape (escapeQuotes s) = s := by
  intro s
  induction s with
  | nil => rfl
  | cons a t ih =>
    by_cases ha : a = '"'
    · simp [escapeQuotes, ha, unescape, ih]
    · have hh := escapeQuotes_head t
      cases he : escapeQuotes t with
      | nil =>
        rw [he] at ih
        simp only [escapeQuotes, ha, if_false, he, unescape]
        rw [← ih]; rfl
      | cons d r =>
        have hd : d ≠ '"' := by
          intro e; rw [he, e] at hh; simp at hh
        rw [he] at ih
        simp only [escapeQuotes, ha, if_false, he, unescape, hd, and_false, ih]

theorem escapeQuotes_guarded : ∀ s pre post : Str,
    escapeQuotes s = pre ++ '"' :: post → ∃ pre2, pre = pre2 ++ ['\\'] := by
  intro s
  induction s with
  | nil => intro pre post h; simp [escapeQuotes] at h
  | cons a t ih =>
    intro pre post h
    by_cases ha : a = '"'
    · simp only [escapeQuotes, ha, if_true] at h
      cases pre with
      | nil => simp at h
      | cons x pre1 =>
        simp only [List.cons_append, List.cons.injEq] at h
        obtain ⟨hx, h2⟩ := h
        cases pre1 with
        | nil => exact ⟨[], by simp [← hx]⟩
        | cons y pre2 =>
          simp only [List.cons_append, List.cons.injEq] at h2
          obtain ⟨p, hp⟩ := ih pre2 post h2.2
          exact ⟨x :: y :: p, by simp [hp]⟩
    · simp only [escapeQuotes, ha, if_false] at h
      cases pre with
      | nil =>
        simp only [List.nil_append, List.cons.injEq] at h
        exact absurd h.1 ha
      | cons x pre1 =>
        simp only [List.cons_append, List.cons.injEq] at h
        obtain ⟨p, hp⟩ := ih pre1 post h.2
        exact ⟨x :: p, by simp [hp]⟩

theorem unquote_quote (s : Str) : unquote (quote s) = s := by
  rw [quote_eq]
  simp [unquote, unescape_escapeQuotes]

theorem map_unquote_shellArgs (args : List Str) : (shellArgs args).map unquote = args := by
  simp only [shellArgs, List.map_map]
  conv_rhs => rw [← List.map_id args]
  exact List.map_congr_left (fun a _ => unquote_quote a)

theorem foldl_exportLine (entries : List (Str × Str)) : ∀ out : Str,
    entries.foldl (fun o kv => o ++ exportLine kv.1 kv.2) out
      = out ++ (entries.map (fun kv => exportLine kv.1 kv.2)).flatten := by
  induction entries with
  | nil => intro out; simp
  | cons e rest ih => intro out; simp [ih]

/-! ## The output driver: the claims -/

/-- C9: script mode writes exactly the line `#!/bin/sh`, an empty line, one
line `export K="V2"` per entry in iteration order (`V2` is `V` with every
double quote replaced by a backslash and a double quote), an empty line, the
line `cd $WINEPREFIX/drive_c`, and one command line: `$SHELL` for an empty
argument vector, else `args[0]`, a space and the space-joined
`shellArgs(args[1:])`.  For the entry `FOO` with value `a"b` and the command
`run`, `x y` these are the six lines of the example. -/
theorem script_mode_text (entries : List (Str × Str)) (args : List Str) :
    scriptMode entries args =
        "#!/bin/sh\n".toList ++ ['\n'] ++
        (entries.map (fun kv =>
          "export ".toList ++ kv.1 ++ ['=', '"'] ++ escapeQuotes kv.2 ++ ['"', '\n'])).flatten ++
        ['\n'] ++ "cd $WINEPREFIX/drive_c\n".toList ++
        (match args with
          | [] => "$SHELL\n".toList
          | a :: rest => a ++ [' '] ++ Join (shellArgs rest) [' '] ++ ['\n']) ∧
      scriptMode [("FOO".toList, "a\"b".toList)] ["run".toList, "x y".toList] =
        ("#!/bin/sh\n\nexport FOO=\"a\\\"b\"\n\n" ++
          "cd $WINEPREFIX/drive_c\nrun \"x y\"\n").toList := by
  refine ⟨?_, by decide⟩
  have hline : (fun kv : Str × Str => exportLine kv.1 kv.2) = fun kv =>
      "export ".toList ++ kv.1 ++ ['=', '"'] ++ escapeQuotes kv.2 ++ ['"', '\n'] := by
    funext kv
    simp [exportLine, ReplaceAll_quote]
  cases args with
  | nil => simp [scriptMode, Println, foldl_exportLine, hline]
  | cons a rest => simp [scriptMode, Println, foldl_exportLine, hline]

/-- Witness of C9: no entry and no argument give the five lines that end in
`$SHELL`. -/
theorem script_mode_text_witness :
    scriptMode [] [] = "#!/bin/sh\n\n\ncd $WINEPREFIX/drive_c\n$SHELL\n".toList :=
  (script_mode_text [] []).1.trans (by decide)

/-- C10: `shellArgs` keeps length and order; element `i` is `args[i]` with its
double quotes escaped, between two double quotes; every double quote of the
part in between comes right after a backslash; deleting the two enclosing
quotes and the backslash in front of each double quote gives `args[i]` back,
so `shellArgs` is injective.  The value of an export line is written the same
way and reads back the same way. -/
theorem shellArgs_roundtrip (args : List Str) :
    (shellArgs args).length = args.length ∧
      (∀ i (h : i < args.length),
        (shellArgs args).get? i = some ('"' :: escapeQuotes (args.get ⟨i, h⟩) ++ ['"']) ∧
        (∀ pre post, escapeQuotes (args.get ⟨i, h⟩) = pre ++ '"' :: post →
          ∃ pre2, pre = pre2 ++ ['\\']) ∧
        unquote ('"' :: escapeQuotes (args.get ⟨i, h⟩) ++ ['"']) = args.get ⟨i, h⟩) ∧
      (shellArgs args).map unquote = args ∧
      Function.Injective shellArgs ∧
      (∀ K V : Str,
        exportLine K V =
          "export ".toList ++ K ++ ['='] ++ ('"' :: escapeQuotes V ++ ['"']) ++ ['\n'] ∧
        shellArgs [V] = ['"' :: escapeQuotes V ++ ['"']] ∧
        (∀ pre post, escapeQuotes V = pre ++ '"' :: post → ∃ pre2, pre = pre2 ++ ['\\']) ∧
        unquote ('"' :: escapeQuotes V ++ ['"']) = V) := by
  refine ⟨by simp [shellArgs], ?_, map_unquote_shellArgs args, ?_, ?_⟩
  · intro i h
    refine ⟨?_, escapeQuotes_guarded _, ?_⟩
    · simp [shellArgs, List.getElem?_eq_getElem h, quote_eq]
    · rw [← quote_eq]; exact unquote_quote _
  · intro a b hab
    rw [← map_unquote_shellArgs a, ← map_unquote_shellArgs b, hab]
  · intro K V
    refine ⟨by rw [exportLine_eq, quote_eq], by simp [shellArgs, quote_eq],
      escapeQuotes_guarded _, ?_⟩
    rw [← quote_eq]; exact unquote_quote _

/-- Witness of C10: the argument `a"b` is written `"a\"b"` and read back. -/
theorem shellArgs_roundtrip_witness :
    (shellArgs ["a\"b".toList, "c".toList]).get? 0 = some "\"a\\\"b\"".toList ∧
      (shellArgs ["a\"b".toList, "c".toList]).map unquote = ["a\"b".toList, "c".toList] :=
  ⟨((shellArgs_roundtrip ["a\"b".toList, "c".toList]).2.1 0 (by decide)).1.trans (by decide),
    (shellArgs_roundtrip ["a\"b".toList, "c".toList]).2.2.1⟩

/-! ## Direct execution: the claim -/

theorem foldl_execEnv (entries : List (Str × Str)) : ∀ c : Cmd,
    entries.foldl
        (fun c kv =>
          { c with Env := c.Env ++
            [kv.1 ++ ['=', '"'] ++ ReplaceAll kv.2 ['"'] ['\\', '"'] ++ ['"']] }) c
      = { c with Env := c.Env ++ entries.map (fun kv => envString kv.1 kv.2) } := by
  induction entries with
  | nil => intro c; simp
  | cons e rest ih =>
    intro c
    rw [List.foldl_cons, ih]
    simp [envString, ReplaceAll_quote]

theorem execMode_Env (env : EnvMap) (entries : List (Str × Str)) (args : List Str) :
    (execMode env entries args).Env = entries.map (fun kv => envString kv.1 kv.2) := by
  unfold execMode
  rw [foldl_execEnv]
  cases args with
  | nil => simp [Command]
  | cons a rest => simp [Command]

/-- C11: in exec mode `cmd.Env` holds one string per entry of the map and no
other: for the entries in iteration order it is the list of the strings
`K="V2"`, `V2` being `V` with a backslash in front of every double quote, and
the export line of script mode is that string between `export ` and a line
end.  Nothing of the environment of the invoking process is in the list, and
for a map with an entry the list is what the child gets. -/
theorem exec_mode_environment (env : EnvMap) (entries : List (Str × Str))
    (args : List Str) (hperm : entries.Perm env) :
    (execMode env entries args).Env = entries.map (fun kv => envString kv.1 kv.2) ∧
      (execMode env entries args).Env.Perm (env.map (fun kv => envString kv.1 kv.2)) ∧
      (execMode env entries args).Env.length = env.length ∧
      (∀ K V : Str, exportLine K V = "export ".toList ++ envString K V ++ ['\n']) ∧
      (∀ osEnviron : List Str, env ≠ [] →
        childEnviron (execMode env entries args) osEnviron
          = entries.map (fun kv => envString kv.1 kv.2)) := by
  have hEnv := execMode_Env env entries args
  refine ⟨hEnv, ?_, ?_, ?_, ?_⟩
  · rw [hEnv]; exact hperm.map _
  · rw [hEnv, List.length_map]; exact hperm.length_eq
  · intro K V
    simp [exportLine, envString, ReplaceAll_quote]
  · intro osEnviron hne
    have hne2 : entries ≠ [] := by
      intro e
      rw [e] at hperm
      exact hne (List.Perm.nil_eq hperm).symm
    unfold childEnviron
    rw [hEnv, if_neg (by simpa using hne2)]

/-- Witness of C11: the map `sampleFixed`, iterated from its last entry to its
first, with no command given. -/
theorem exec_mode_environment_witness :
    (execMode sampleFixed sampleFixed.reverse []).Env =
        ["SHELL=\"/bin/bash\"".toList, "TERM=\"xterm\"".toList,
          "PATH=\"/a:/b:/bin\"".toList, "WINE=\"\"".toList] ∧
      childEnviron (execMode sampleFixed sampleFixed.reverse []) ["HOME=/root".toList]
        = sampleFixed.reverse.map (fun kv => envString kv.1 kv.2) :=
  ⟨(exec_mode_environment sampleFixed sampleFixed.reverse []
      (List.reverse_perm sampleFixed)).1.trans (by decide),
    (exec_mode_environment sampleFixed sampleFixed.reverse []
      (List.reverse_perm sampleFixed)).2.2.2.2 ["HOME=/root".toList] (by decide)⟩

/-! ## Duplicate names: the claim -/

theorem foldl_WINE_empty : ∀ (post : List Str) (m : EnvMap),
    m.get? "WINE".toList = some [] →
    (∀ V, "WINE".toList ++ '=' :: V ∉ post) →
    (post.foldl environStep m).get? "WINE".toList = some [] := by
  intro post
  induction post with
  | nil => intro m h _; exact h
  | cons ev rest ih =>
    intro m h hno
    have hrest : ∀ V, "WINE".toList ++ '=' :: V ∉ rest :=
      fun V hV => hno V (List.mem_cons_of_mem _ hV)
    rw [List.foldl_cons]
    refine ih _ ?_ hrest
    by_cases hw : ev = "WINE".toList
    · have hb : '=' ∉ ev := by rw [hw]; decide
      rw [environStep_bare m ev hb, if_pos hw]
      exact get?_set_self _ _ _
    · rw [environStep_get?_other m ev "WINE".toList
        (fun V e => hno V (by rw [e]; exact List.mem_cons_self _ _))
        (fun e => absurd e hw)]
      exact h

/-- C16: when a whitelisted name `K` has several records `K=V`, the map
`environ` returns holds the value of the last one in block order; for `WINE`
this is so when no bare `WINE` follows, and a bare `WINE` after the records
`WINE=V` leaves `WINE` with the empty string. -/
theorem environ_last_record_wins (buff : Str) :
    ∃ m, environ (.ok buff) = .ok m ∧
      (∀ K ∈ neededEnv, ∀ pre V post,
        Split buff [NUL] = pre ++ (K ++ '=' :: V) :: post →
        (∀ V2, K ++ '=' :: V2 ∉ post) →
        (K = "WINE".toList → "WINE".toList ∉ post) →
        m.get? K = some V) ∧
      (∀ pre post, Split buff [NUL] = pre ++ "WINE".toList :: post →
        (∀ V2, "WINE".toList ++ '=' :: V2 ∉ post) →
        m.get? "WINE".toList = some []) := by
  refine ⟨_, environ_ok buff, ?_, ?_⟩
  · intro K hK pre V post hsplit hlast hbare
    rw [hsplit]
    refine environDefaults_get?_some _ K V (environCopy_get?_last K V hK pre post ?_)
    intro ev hev
    refine ⟨fun V2 e => hlast V2 (e ▸ hev), fun hw hKw => hbare hKw (hw ▸ hev)⟩
  · intro pre post hsplit hlast
    rw [hsplit, environCopy_append]
    refine environDefaults_get?_some _ _ _ (foldl_WINE_empty post _ ?_ hlast)
    rw [environStep_bare _ _ (by decide), if_pos rfl]
    exact get?_set_self _ _ _

/-- Witness of C16: `TERM` is given twice and a bare `WINE` follows `WINE=/x`. -/
theorem environ_last_record_wins_witness :
    ∃ m, environ (.ok ("WINE=/x".toList ++ NUL :: "TERM=a".toList ++ NUL ::
          "WINE".toList ++ NUL :: "TERM=b".toList)) = .ok m ∧
      m.get? "TERM".toList = some "b".toList ∧ m.get? "WINE".toList = some [] := by
  obtain ⟨m, hm, hlast, hbare⟩ := environ_last_record_wins
    ("WINE=/x".toList ++ NUL :: "TERM=a".toList ++ NUL ::
      "WINE".toList ++ NUL :: "TERM=b".toList)
  refine ⟨m, hm,
    hlast "TERM".toList (by decide)
      ["WINE=/x".toList, "TERM=a".toList, "WINE".toList] "b".toList [] (by decide)
      (by intro V2 h; simp at h) (by decide),
    hbare ["WINE=/x".toList, "TERM=a".toList] ["TERM=b".toList] (by decide) ?_⟩
  intro V2 h
  have h2 : some 'W' = some 'T' := congrArg List.head? (List.mem_singleton.1 h)
  exact absurd h2 (by decide)

/-! ## Path repair: lemmas -/

theorem genSplit_ne_nil (sep : Str) (n : Nat) (s : Str) : genSplit sep n s ≠ [] := by
  cases n with
  | zero => simp [genSplit]
  | succ n =>
    cases h : Index s sep with
    | none => simp [genSplit, h]
    | some m => simp [genSplit, h]

theorem Join_cons_of_ne_nil (a : Str) (l : List Str) (sep : Str) (h : l ≠ []) :
    Join (a :: l) sep = a ++ sep ++ Join l sep := by
  cases l with
  | nil => exact absurd rfl h
  | cons b rest => rfl

/-- Joining the pieces of a string with the separator gives the string back. -/
theorem Join_genSplit (c : Char) : ∀ (n : Nat) (s : Str),
    Join (genSplit [c] n s) [c] = s := by
  intro n
  induction n with
  | zero => intro s; rfl
  | succ n ih =>
    intro s
    rcases cut_first c s with h | ⟨k, v, hk, rfl⟩
    · simp [genSplit, Index_single_none c s h, Join]
    · have hd : List.drop (k.length + 1) (k ++ c :: v) = v := by
        rw [List.drop_append_eq_append_drop]; simp
      simp only [genSplit, Index_single_append c v k hk, List.length_singleton,
        List.take_left', hd]
      rw [Join_cons_of_ne_nil _ _ _ (genSplit_ne_nil _ _ _), ih v]
      simp

theorem Join_Split (c : Char) (s : Str) : Join (Split s [c]) [c] = s :=
  Join_genSplit c s.length s

theorem fixPathLoop_exit (fuel : Nat) (elements : List Str) (i : Int) (hi : 0 < i) :
    fixPathLoop (fuel + 1) elements i = some (.ok elements) := by
  have h : ¬ i ≤ 0 := by omega
  simp [fixPathLoop, h]

theorem fixPathLoop_not_ok : ∀ (fuel : Nat) (elements : List Str) (i : Int), i ≤ 0 →
    ∀ e1, fixPathLoop fuel elements i ≠ some (.ok e1) := by
  intro fuel
  induction fuel with
  | zero => intro elements i _ e1; simp [fixPathLoop]
  | succ fuel ih =>
    intro elements i hi e1
    by_cases hb : i < 0 ∨ i ≥ elements.length
    · simp [fixPathLoop, hi, hb]
    · simp only [fixPathLoop, hi, if_true, hb, if_false]
      exact ih _ (i - 1) (by omega) e1

theorem fixPathLoop_panic (fuel : Nat) (elements : List Str) (i : Int) (hi : i ≤ 0) :
    fixPathLoop (fuel + 2) elements i = some (.panic "index out of range") := by
  by_cases hb : i < 0 ∨ i ≥ elements.length
  · simp [fixPathLoop, hi, hb]
  · have h1 : i - 1 ≤ 0 := by omega
    have h2 : i - 1 < 0 := by omega
    simp [fixPathLoop, hi, hb, h1, h2]

/-- With two segments or more the loop of `fixPath` is left at the first test
of its condition, and `fixPath` returns the collapsed join. -/
theorem fixPath_of_two (fuel : Nat) (env : EnvMap) (osPath : Str)
    (h : 2 ≤ (Split (env.get "PATH".toList) [':']).length) :
    fixPath (fuel + 1) env osPath = some (.ok (env.set "PATH".toList
      (ReplaceAll
        (env.get "PATH".toList ++ [':'] ++ Dir (env.get "WINE".toList) ++ [':'] ++ osPath)
        ":.:".toList [':']))) := by
  have hi : (0 : Int) < ((Split (env.get "PATH".toList) [':']).length : Int) - 1 := by
    omega
  simp only [fixPath, fixPathLoop_exit fuel _ _ hi, Join_Split]

/-- With a single segment `fixPath` panics. -/
theorem fixPath_of_one (fuel : Nat) (env : EnvMap) (osPath : Str)
    (h : (Split (env.get "PATH".toList) [':']).length ≤ 1) :
    fixPath (fuel + 2) env osPath = some (.panic "index out of range") := by
  have hi : ((Split (env.get "PATH".toList) [':']).length : Int) - 1 ≤ 0 := by
    omega
  simp only [fixPath, fixPathLoop_panic fuel _ _ hi]

/-- When `fixPath` returns a map, the `PATH` had two segments or more and the
map is the one of `fixPath_of_two`. -/
theorem fixPath_ok_inv (fuel : Nat) (env : EnvMap) (osPath : Str) (m2 : EnvMap)
    (h : fixPath fuel env osPath = some (.ok m2)) :
    2 ≤ (Split (env.get "PATH".toList) [':']).length ∧
      m2 = env.set "PATH".toList
        (ReplaceAll
          (env.get "PATH".toList ++ [':'] ++ Dir (env.get "WINE".toList) ++ [':'] ++ osPath)
          ":.:".toList [':']) := by
  by_cases h2 : 2 ≤ (Split (env.get "PATH".toList) [':']).length
  · refine ⟨h2, ?_⟩
    cases fuel with
    | zero => simp [fixPath, fixPathLoop] at h
    | succ fuel =>
      rw [fixPath_of_two fuel env osPath h2] at h
      simp only [Option.some.injEq, Outcome.ok.injEq] at h
      exact h.symm
  · exfalso
    have hi : ((Split (env.get "PATH".toList) [':']).length : Int) - 1 ≤ 0 := by
      omega
    have hno := fixPathLoop_not_ok fuel (Split (env.get "PATH".toList) [':']) _ hi
    unfold fixPath at h
    simp only at h
    split at h
    · exact absurd h (by simp)
    · exact absurd h (by simp)
    · exact absurd h (by simp)
    · rename_i e1 he
      exact hno e1 he

theorem collapseDot_match (rest : Str) :
    collapseDot (':' :: '.' :: ':' :: rest) = ':' :: collapseDot rest := by
  simp [collapseDot]

theorem hasPrefixOf_dot (s : Str) :
    hasPrefixOf s [':', '.', ':'] = true ↔ ∃ rest, s = ':' :: '.' :: ':' :: rest := by
  unfold hasPrefixOf
  rw [List.isPrefixOf_iff_prefix]
  constructor
  · rintro ⟨t, rfl⟩; exact ⟨t, rfl⟩
  · rintro ⟨t, rfl⟩; exact ⟨t, rfl⟩

theorem collapseDot_other (c : Char) (cs : Str)
    (h : ¬ hasPrefixOf (c :: cs) [':', '.', ':'] = true) :
    collapseDot (c :: cs) = c :: collapseDot cs := by
  rw [hasPrefixOf_dot] at h
  cases cs with
  | nil => simp [collapseDot]
  | cons d cs2 =>
    cases cs2 with
    | nil => simp [collapseDot]
    | cons e rest =>
      have hc : ¬ (c = ':' ∧ d = '.' ∧ e = ':') := by
        rintro ⟨rfl, rfl, rfl⟩
        exact h ⟨rest, rfl⟩
      simp only [collapseDot, hc, if_false]

theorem collapseDot_Index : ∀ s : Str,
    (Index s [':', '.', ':'] = none → collapseDot s = s) ∧
    (∀ m, Index s [':', '.', ':'] = some m →
      collapseDot s = s.take m ++ ':' :: collapseDot (s.drop (m + 3))) := by
  intro s
  induction s with
  | nil => simp [Index, collapseDot]
  | cons c cs ih =>
    by_cases hp : hasPrefixOf (c :: cs) [':', '.', ':'] = true
    · obtain ⟨rest, hrest⟩ := (hasPrefixOf_dot _).1 hp
      constructor
      · intro h; simp [Index, hp] at h
      · intro m h
        simp only [Index, hp, if_true, Option.some.injEq] at h
        subst h
        rw [hrest, collapseDot_match]
        simp
    · rw [collapseDot_other c cs hp]
      constructor
      · intro h
        simp only [Index, hp, Bool.false_eq_true, if_false, Option.map_eq_none'] at h
        rw [ih.1 h]
      · intro m h
        simp only [Index, hp, Bool.false_eq_true, if_false, Option.map_eq_some'] at h
        obtain ⟨m2, hm2, rfl⟩ := h
        rw [ih.2 m2 hm2, show Nat.succ m2 + 3 = (m2 + 3) + 1 by omega]
        rfl

theorem replaceN_collapseDot : ∀ (n : Nat) (s : Str), s.length ≤ n →
    replaceN [':', '.', ':'] [':'] n s = collapseDot s := by
  intro n
  induction n with
  | zero =>
    intro s h
    have : s = [] := List.length_eq_zero.1 (Nat.le_zero.1 h)
    subst this; rfl
  | succ n ih =>
    intro s h
    cases hi : Index s [':', '.', ':'] with
    | none => simp [replaceN, hi, (collapseDot_Index s).1 hi]
    | some m =>
      have hd : (s.drop (m + 3)).length ≤ n := by
        rw [List.length_drop]; omega
      simp only [replaceN, hi, List.length_cons, List.length_nil]
      rw [ih _ (by simpa using hd), (collapseDot_Index s).2 m hi]
      simp

theorem ReplaceAll_collapseDot (s : Str) :
    ReplaceAll s ":.:".toList [':'] = collapseDot s :=
  replaceN_collapseDot s.length s (Nat.le_refl _)

theorem collapseDot_head (s : Str) : (collapseDot s).head? = s.head? := by
  cases s with
  | nil => rfl
  | cons c cs =>
    by_cases hp : hasPrefixOf (c :: cs) [':', '.', ':'] = true
    · obtain ⟨rest, hrest⟩ := (hasPrefixOf_dot _).1 hp
      rw [hrest, collapseDot_match]; rfl
    · rw [collapseDot_other c cs hp]; rfl

theorem collapseDot_dot_colon (s : Str) (h : ['.', ':'] <+: collapseDot s) :
    ['.', ':'] <+: s := by
  cases s with
  | nil => simp [collapseDot] at h
  | cons c cs =>
    by_cases hp : hasPrefixOf (c :: cs) [':', '.', ':'] = true
    · obtain ⟨rest, hrest⟩ := (hasPrefixOf_dot _).1 hp
      rw [hrest, collapseDot_match, List.cons_prefix_cons] at h
      exact absurd h.1 (by decide)
    · rw [collapseDot_other c cs hp, List.cons_prefix_cons] at h
      obtain ⟨hc, hY⟩ := h
      have hhead : (collapseDot cs).head? = some ':' := by
        obtain ⟨t, ht⟩ := hY
        rw [← ht]; rfl
      rw [collapseDot_head] at hhead
      cases cs with
      | nil => simp at hhead
      | cons d r =>
        simp only [List.head?_cons, Option.some.injEq] at hhead
        rw [← hc, hhead]
        exact ⟨r, rfl⟩

/-- A string without `:.:.:` has no `:.:` left after the collapse. -/
theorem collapseDot_clean : ∀ (n : Nat) (s : Str), s.length ≤ n →
    ¬ [':', '.', ':', '.', ':'] <:+: s → ¬ [':', '.', ':'] <:+: collapseDot s := by
  intro n
  induction n with
  | zero =>
    intro s h _ hin
    have : s = [] := List.length_eq_zero.1 (Nat.le_zero.1 h)
    subst this
    have := hin.length_le
    simp [collapseDot] at this
  | succ n ih =>
    intro s hlen hq hin
    cases s with
    | nil =>
      have := hin.length_le
      simp [collapseDot] at this
    | cons c cs =>
      have hcs : ¬ [':', '.', ':', '.', ':'] <:+: cs :=
        fun e => hq (e.trans (List.suffix_cons c cs).isInfix)
      by_cases hp : hasPrefixOf (c :: cs) [':', '.', ':'] = true
      · obtain ⟨rest, hrest⟩ := (hasPrefixOf_dot _).1 hp
        have hrest2 : ¬ [':', '.', ':', '.', ':'] <:+: rest :=
          fun e => hq (e.trans (by rw [hrest]; exact ⟨[':', '.', ':'], [], by simp⟩))
        have hlen2 : rest.length ≤ n := by
          rw [hrest] at hlen; simp only [List.length_cons] at hlen; omega
        rw [hrest, collapseDot_match, List.infix_cons_iff] at hin
        rcases hin with h1 | h1
        · rw [List.cons_prefix_cons] at h1
          obtain ⟨t, ht⟩ := collapseDot_dot_colon rest h1.2
          exact hq (by rw [hrest, ← ht]; exact ⟨[], t, by simp⟩)
        · exact ih rest hlen2 hrest2 h1
      · have hlen2 : cs.length ≤ n := by
          simp only [List.length_cons] at hlen; omega
        rw [collapseDot_other c cs hp, List.infix_cons_iff] at hin
        rcases hin with h1 | h1
        · rw [List.cons_prefix_cons] at h1
          obtain ⟨t, ht⟩ := collapseDot_dot_colon cs h1.2
          exact hp ((hasPrefixOf_dot _).2 ⟨t, by rw [← h1.1, ← ht]; rfl⟩)
        · exact ih cs hlen2 hcs h1

/-- A string with `:.:.:` keeps a `:.:` after the collapse. -/
theorem collapseDot_dirty : ∀ (n : Nat) (s : Str), s.length ≤ n →
    [':', '.', ':', '.', ':'] <:+: s → [':', '.', ':'] <:+: collapseDot s := by
  intro n
  induction n with
  | zero =>
    intro s h hin
    have : s = [] := List.length_eq_zero.1 (Nat.le_zero.1 h)
    subst this
    have := hin.length_le
    simp at this
  | succ n ih =>
    intro s hlen hin
    cases s with
    | nil =>
      have := hin.length_le
      simp at this
    | cons c cs =>
      by_cases hp : hasPrefixOf (c :: cs) [':', '.', ':'] = true
      · obtain ⟨rest, hrest⟩ := (hasPrefixOf_dot _).1 hp
        have hlen2 : rest.length ≤ n := by
          rw [hrest] at hlen; simp only [List.length_cons] at hlen; omega
        rw [hrest, collapseDot_match]
        have hcases : ['.', ':'] <+: rest ∨ [':', '.', ':', '.', ':'] <:+: rest := by
          rw [hrest, List.infix_cons_iff] at hin
          rcases hin with h1 | h1
          · left
            obtain ⟨t, ht⟩ := h1
            simp only [List.cons_append, List.cons.injEq, true_and] at ht
            exact ⟨t, by simpa using ht⟩
          · rw [List.infix_cons_iff] at h1
            rcases h1 with h2 | h2
            · rw [List.cons_prefix_cons] at h2
              exact absurd h2.1 (by decide)
            · rw [List.infix_cons_iff] at h2
              rcases h2 with h3 | h3
              · left
                rw [List.cons_prefix_cons] at h3
                obtain ⟨t, ht⟩ := h3.2
                exact ⟨'.' :: ':' :: t, by rw [← ht]; rfl⟩
              · right; exact h3
        rcases hcases with ⟨t, ht⟩ | h1
        · have hnp : ¬ hasPrefixOf ('.' :: ':' :: t) [':', '.', ':'] = true := by
            rw [hasPrefixOf_dot]; rintro ⟨r, hr⟩
            simp only [List.cons.injEq] at hr
            exact absurd hr.1 (by decide)
          have hhead := collapseDot_head (':' :: t)
          rw [← ht]
          show [':', '.', ':'] <:+: ':' :: collapseDot ('.' :: ':' :: t)
          rw [collapseDot_other _ _ hnp]
          cases hc : collapseDot (':' :: t) with
          | nil => rw [hc] at hhead; simp at hhead
          | cons d r =>
            rw [hc] at hhead
            simp only [List.head?_cons, Option.some.injEq] at hhead
            rw [hhead]
            exact ⟨[], r, rfl⟩
        · exact (ih rest hlen2 h1).trans (List.suffix_cons _ _).isInfix
      · have hlen2 : cs.length ≤ n := by
          simp only [List.length_cons] at hlen; omega
        rw [collapseDot_other c cs hp]
        rw [List.infix_cons_iff] at hin
        rcases hin with h1 | h1
        · exfalso
          obtain ⟨t, ht⟩ := h1
          exact hp ((hasPrefixOf_dot _).2 ⟨'.' :: ':' :: t, by rw [← ht]; rfl⟩)
        · exact (ih cs hlen2 h1).trans (List.suffix_cons _ _).isInfix

theorem Dir_nil : Dir [] = ['.'] := rfl

theorem get_of_absent_or_empty (env : EnvMap) (k : Str)
    (h : env.get? k = none ∨ env.get? k = some []) : env.get k = [] := by
  rcases h with h | h <;> simp [EnvMap.get, h]

theorem get_of_get? (m : EnvMap) (k v : Str) (h : m.get? k = some v) : m.get k = v := by
  simp [EnvMap.get, h]

/-! ## Path repair: the claims -/

/-- C12 fails on the code: no segment of the `PATH` `/a:/b` of `plainEnv`
contains `steam`, so the `PATH` of the specification keeps none of them and
is `:.:/bin` (`:/bin` once `:.:` is collapsed); `fixPath` returns
`/a:/b:/bin`, because its loop `for i := len(elements) - 1; i <= 0; i--` never
runs the removal on two segments.  Where every segment is marked, as in
`steamEnv`, `fixPath` returns the collapsed `PATH` of the specification. -/
theorem fixPath_keeps_unmarked_segments :
    (∀ seg ∈ Split (plainEnv.get "PATH".toList) [':'],
        Contains (ToLower seg) "steam".toList = false) ∧
      (∀ fuel, fixPath (fuel + 1) plainEnv "/bin".toList
        = some (.ok [("PATH".toList, "/a:/b:/bin".toList)])) ∧
      specPath plainEnv "/bin".toList = ":.:/bin".toList ∧
      ReplaceAll (specPath plainEnv "/bin".toList) ":.:".toList [':'] = ":/bin".toList ∧
      (∀ fuel, fixPath (fuel + 1) steamEnv "/bin".toList
        = some (.ok [("PATH".toList,
            ReplaceAll (specPath steamEnv "/bin".toList) ":.:".toList [':'])])) :=
  ⟨by decide,
    fun fuel => (fixPath_of_two fuel plainEnv "/bin".toList (by decide)).trans (by decide),
    by decide, by decide,
    fun fuel => (fixPath_of_two fuel steamEnv "/bin".toList (by decide)).trans (by decide)⟩

/-- Counterexample to C13 as stated: `WINE` is absent, `fixPath` returns, and
with the invoker `PATH` `.:/bin` the new `PATH` still contains `:.:`. -/
theorem collapse_counterexample :
    EnvMap.get? plainEnv "WINE".toList = none ∧
      fixPath 2 plainEnv ".:/bin".toList
        = some (.ok [("PATH".toList, "/a:/b:.:/bin".toList)]) ∧
      Contains "/a:/b:.:/bin".toList ":.:".toList = true := by
  decide

/-- C13, amended: when `WINE` is absent or empty and `fixPath` returns, the new
`PATH` is the original `PATH`, `:.:` and the `PATH` of the invoking process,
with every `:.:` replaced by `:`, left to right and without overlap; it
contains `:.:` if and only if the string before the replacement contains
`:.:.:`, two segments `.` in a row. -/
theorem collapse_of_dir_artifact (fuel : Nat) (env : EnvMap) (osPath : Str) (m2 : EnvMap)
    (hW : env.get? "WINE".toList = none ∨ env.get? "WINE".toList = some [])
    (hfix : fixPath fuel env osPath = some (.ok m2)) :
    m2.get? "PATH".toList = some (ReplaceAll
        (env.get "PATH".toList ++ ":.:".toList ++ osPath) ":.:".toList [':']) ∧
      (Contains (m2.get "PATH".toList) ":.:".toList = true ↔
        Contains (env.get "PATH".toList ++ ":.:".toList ++ osPath) ":.:.:".toList = true) := by
  obtain ⟨_, hm⟩ := fixPath_ok_inv fuel env osPath m2 hfix
  rw [get_of_absent_or_empty env _ hW, Dir_nil] at hm
  have hstr : env.get "PATH".toList ++ [':'] ++ ['.'] ++ [':'] ++ osPath
      = env.get "PATH".toList ++ ":.:".toList ++ osPath := by
    simp
  rw [hstr] at hm
  have hget : m2.get? "PATH".toList = some (ReplaceAll
      (env.get "PATH".toList ++ ":.:".toList ++ osPath) ":.:".toList [':']) := by
    rw [hm]; exact get?_set_self _ _ _
  refine ⟨hget, ?_⟩
  rw [get_of_get? _ _ _ hget, ReplaceAll_collapseDot, Contains_iff, Contains_iff]
  constructor
  · intro h
    by_contra hq
    exact collapseDot_clean _ _ (Nat.le_refl _) hq h
  · intro h
    exact collapseDot_dirty _ _ (Nat.le_refl _) h

/-- Witness of C13, amended: `sampleEnv` has an empty `WINE`; the `.` of
`filepath.Dir` is gone from the new `PATH`. -/
theorem collapse_of_dir_artifact_witness :
    sampleFixed.get? "PATH".toList = some (ReplaceAll
        (sampleEnv.get "PATH".toList ++ ":.:".toList ++ "/bin".toList) ":.:".toList [':']) ∧
      Contains (sampleFixed.get "PATH".toList) ":.:".toList = false := by
  have h := collapse_of_dir_artifact 2 sampleEnv "/bin".toList sampleFixed
    (Or.inr (by decide)) (by decide)
  exact ⟨h.1, by decide⟩

/-- C14: when the `PATH` has two segments or more, the loop of `fixPath` is
left at the first test of its condition `i <= 0`, so that no segment is
removed, with or without `steam`; the new `PATH` is the original `PATH`, `:`,
the directory of `WINE`, `:` and the `PATH` of the invoking process, and in
this string every `:.:` is replaced by `:`, left to right and without
overlap. -/
theorem fixPath_filter_is_noop (fuel : Nat) (env : EnvMap) (osPath : Str)
    (h2 : 2 ≤ (Split (env.get "PATH".toList) [':']).length) :
    ¬ (((Split (env.get "PATH".toList) [':']).length : Int) - 1 ≤ 0) ∧
      fixPathLoop 1 (Split (env.get "PATH".toList) [':'])
          (((Split (env.get "PATH".toList) [':']).length : Int) - 1)
        = some (.ok (Split (env.get "PATH".toList) [':'])) ∧
      (∃ m2, fixPath (fuel + 1) env osPath = some (.ok m2) ∧
        m2.get? "PATH".toList = some (ReplaceAll
          (env.get "PATH".toList ++ [':'] ++ Dir (env.get "WINE".toList) ++ [':'] ++ osPath)
          ":.:".toList [':']) ∧
        m2.get? "PATH".toList = some (collapseDot
          (env.get "PATH".toList ++ [':'] ++ Dir (env.get "WINE".toList) ++ [':'] ++
            osPath))) := by
  have hi : (0 : Int) < ((Split (env.get "PATH".toList) [':']).length : Int) - 1 := by
    omega
  refine ⟨by omega, fixPathLoop_exit 0 _ _ hi, _, fixPath_of_two fuel env osPath h2,
    get?_set_self _ _ _, ?_⟩
  rw [← ReplaceAll_collapseDot]
  exact get?_set_self _ _ _

/-- Witness of C14: the `PATH` `/a:/b` of `sampleEnv` has no `steam` and is
kept whole. -/
theorem fixPath_filter_is_noop_witness :
    ∃ m2, fixPath 2 sampleEnv "/bin".toList = some (.ok m2) ∧
      m2.get? "PATH".toList = some "/a:/b:/bin".toList := by
  obtain ⟨_, _, m2, hfix, hget, _⟩ :=
    fixPath_filter_is_noop 1 sampleEnv "/bin".toList (by decide)
  exact ⟨m2, hfix, hget.trans (by decide)⟩

/-- C15 fails on the code: on a map without `PATH`, with an empty `PATH` or
with a `PATH` of one segment, the loop of `fixPath` runs, steps to `i = -1`,
and `elements[i]` is out of range; `fixPath` panics and returns no map.  The
first of these maps is what `environ` returns for an empty block. -/
theorem fixPath_panics_on_one_segment :
    environ (.ok []) = .ok barePathEnv ∧
      (∀ fuel, fixPath (fuel + 2) barePathEnv "/bin".toList
        = some (.panic "index out of range")) ∧
      (∀ fuel, fixPath (fuel + 2) [("PATH".toList, [])] "/bin".toList
        = some (.panic "index out of range")) ∧
      (∀ fuel, fixPath (fuel + 2) [("PATH".toList, "/usr/bin".toList)] "/bin".toList
        = some (.panic "index out of range")) :=
  ⟨by decide,
    fun fuel => fixPath_of_one fuel _ _ (by decide),
    fun fuel => fixPath_of_one fuel _ _ (by decide),
    fun fuel => fixPath_of_one fuel _ _ (by decide)⟩

end La4x
